import Mathlib

/-!
Verification development for the moon-discounts marketplace pipeline.

The repository consists of two near-identical scripts, `market_update.py` and
`build_all_sells.py`, whose shared core is:

* a binary snapshot decoder `extract` (930-byte chunks, 18 slots per stall),
* a history merge `merge_history` (per-day max-reconciliation),
* statistics `compute_sell_medians` / `compute_sell_averages`.

This file gives a shallow embedding of that core:

* Python dicts are modelled as insertion-ordered association lists
  (`dget` is `d.get(k)`, `dset` is `d[k] = v`, `dsetdefault` is
  `d.setdefault(k, v)`, `dupd` is the read-modify-write pattern used by
  the statistics accumulators).
* A Python dict key that can be either an `int` or a `str` (the history
  file is JSON, whose keys are decimal strings, while freshly decoded
  snapshots use `int` keys) is modelled by `PyKey`.
* `str(k)` on such a key is `pyStr`, `int(k)` is `pyInt` (partial in
  Python; total here, with the int-like guard made explicit where used).
* Raw bytes are `Fin 256`; multi-byte fields are little-endian, matching
  the `"=HIB37s"` slot format.  `struct.unpack_from` raising on a
  too-short buffer is modelled by `Option`.
* Python `float` results (pandas medians, weighted averages) are given
  exactly as `Rat`; `date.today()` is an explicit `today : String`
  argument.
-/

/-- One decimal digit `d < 10` printed as a character, `chr(48 + d)`. -/
def digChar (d : Nat) : Char := Char.ofNat (48 + d)

/-- Fuel-driven digit printer; `fuel` only bounds the recursion depth so
that the definition is structural (and hence kernel-evaluable), any
`fuel > n` computes the digits of `n`. -/
def natToDecAux (fuel : Nat) (n : Nat) : List Char :=
  match fuel with
  | 0 => []
  | f + 1 => if n < 10 then [digChar n] else natToDecAux f (n / 10) ++ [digChar (n % 10)]

/-- Decimal digit list of a natural number, most significant first:
the character content of Python `str(n)` for `n : Nat`. -/
def natToDec (n : Nat) : List Char := natToDecAux (n + 1) n

/-- Python `str(n)` for an integer `n` (minus sign followed by digits). -/
def intToDec (n : Int) : String :=
  if n < 0 then ⟨'-' :: natToDec n.natAbs⟩ else ⟨natToDec n.natAbs⟩

/-- Numeric value of a decimal digit character, if it is one. -/
def decDigit? (c : Char) : Option Nat :=
  if 48 ≤ c.toNat ∧ c.toNat ≤ 57 then some (c.toNat - 48) else none

/-- Parse a nonempty all-digit character list as a natural number:
the digit-run part of Python `int(s)`. -/
def decToNat? (l : List Char) : Option Nat :=
  if l.isEmpty then none
  else l.foldl (fun acc c =>
    match acc, decDigit? c with
    | some a, some d => some (a * 10 + d)
    | _, _ => none) (some 0)

/-- Character-level part of Python `int(s)`: an optional minus sign
followed by a nonempty digit run (the forms produced by `str()`). -/
def decChars? : List Char → Option Int
  | [] => none
  | c :: rest =>
    if c = '-' then (decToNat? rest).map (fun m => -(Int.ofNat m))
    else (decToNat? (c :: rest)).map (fun m => Int.ofNat m)

/-- Python `int(s)` on a canonically written decimal string. -/
def decToInt? (s : String) : Option Int := decChars? s.data

/-- A Python dict key as used by the history structure: either an `int`
(in-memory snapshots) or a `str` (the JSON-serialized history). -/
inductive PyKey where
  | i : Int → PyKey
  | s : String → PyKey
deriving DecidableEq

/-- Python `str(k)` on a key. -/
def pyStr : PyKey → String
  | .i n => intToDec n
  | .s t => t

/-- Python `int(k)` on a key (total model; on a non-numeric string Python
raises, here the junk value 0 is returned — theorems about the statistics
carry an explicit int-like guard for such keys). -/
def pyInt : PyKey → Int
  | .i n => n
  | .s t => (decToInt? t).getD 0

/-- Does Python `int(k)` succeed on this key? -/
def keyIntLike : PyKey → Bool
  | .i _ => true
  | .s t => (decToInt? t).isSome

section Dict

variable {K : Type} {V : Type} [DecidableEq K]

/-- Python `d.get(k)` on an insertion-ordered association list. -/
def dget : List (K × V) → K → Option V
  | [], _ => none
  | (k', v') :: t, k => if k' = k then some v' else dget t k

/-- Python `d[k] = v`: replace in place if the key is present, else
append at the end (dicts preserve insertion order). -/
def dset : List (K × V) → K → V → List (K × V)
  | [], k, v => [(k, v)]
  | (k', v') :: t, k, v => if k' = k then (k', v) :: t else (k', v') :: dset t k v

/-- Python `d.setdefault(k, v)`: insert `v` at the end only when `k` is
absent; an existing entry is kept untouched. -/
def dsetdefault : List (K × V) → K → V → List (K × V)
  | [], k, v => [(k, v)]
  | (k', v') :: t, k, v => if k' = k then (k', v') :: t else (k', v') :: dsetdefault t k v

/-- The read-modify-write pattern `d[k] = g(d.get(k, d0))` used by the
statistics accumulators (and by `defaultdict`). -/
def dupd : List (K × V) → K → V → (V → V) → List (K × V)
  | [], k, d0, g => [(k, g d0)]
  | (k', v') :: t, k, d0, g =>
    if k' = k then (k', g v') :: t else (k', v') :: dupd t k d0 g

theorem dget_dset_self (l : List (K × V)) (k : K) (v : V) :
    dget (dset l k v) k = some v := by
  induction l with
  | nil => simp [dget, dset]
  | cons h t ih =>
    by_cases hk : h.1 = k <;> simp [dget, dset, hk, ih]

theorem dget_dset_ne (l : List (K × V)) (k k' : K) (v : V) (h : k' ≠ k) :
    dget (dset l k v) k' = dget l k' := by
  induction l with
  | nil => simp [dget, dset, Ne.symm h]
  | cons hd t ih =>
    by_cases hk : hd.1 = k
    · simp [dget, dset, hk, h, Ne.symm h]
    · by_cases hk' : hd.1 = k' <;> simp [dget, dset, hk, hk', h, Ne.symm h, ih]

theorem dset_get_self (l : List (K × V)) (k : K) (v : V)
    (h : dget l k = some v) : dset l k v = l := by
  induction l with
  | nil => simp [dget] at h
  | cons hd t ih =>
    obtain ⟨k0, v0⟩ := hd
    by_cases hk : k0 = k
    · simp [dget, hk] at h
      simp [dset, hk, h]
    · simp [dget, hk] at h
      simp [dset, hk, ih h]

theorem dget_dsetdefault_self (l : List (K × V)) (k : K) (v : V) :
    dget (dsetdefault l k v) k = some ((dget l k).getD v) := by
  induction l with
  | nil => simp [dget, dsetdefault]
  | cons hd t ih =>
    by_cases hk : hd.1 = k <;> simp [dget, dsetdefault, hk, ih]

theorem dget_dsetdefault_ne (l : List (K × V)) (k k' : K) (v : V) (h : k' ≠ k) :
    dget (dsetdefault l k v) k' = dget l k' := by
  induction l with
  | nil => simp [dget, dsetdefault, Ne.symm h]
  | cons hd t ih =>
    by_cases hk : hd.1 = k
    · simp [dget, dsetdefault, hk, h, Ne.symm h]
    · by_cases hk' : hd.1 = k' <;> simp [dget, dsetdefault, hk, hk', h, Ne.symm h, ih]

theorem dsetdefault_present (l : List (K × V)) (k : K) (v : V)
    (h : (dget l k).isSome) : dsetdefault l k v = l := by
  induction l with
  | nil => simp [dget] at h
  | cons hd t ih =>
    obtain ⟨k0, v0⟩ := hd
    by_cases hk : k0 = k
    · simp [dsetdefault, hk]
    · simp [dget, hk] at h
      simp [dsetdefault, hk, ih h]

theorem dget_dupd_self (l : List (K × V)) (k : K) (d0 : V) (g : V → V) :
    dget (dupd l k d0 g) k = some (g ((dget l k).getD d0)) := by
  induction l with
  | nil => simp [dget, dupd]
  | cons hd t ih =>
    by_cases hk : hd.1 = k <;> simp [dget, dupd, hk, ih]

theorem dget_dupd_ne (l : List (K × V)) (k k' : K) (d0 : V) (g : V → V)
    (h : k' ≠ k) : dget (dupd l k d0 g) k' = dget l k' := by
  induction l with
  | nil => simp [dget, dupd, Ne.symm h]
  | cons hd t ih =>
    by_cases hk : hd.1 = k
    · simp [dget, dupd, hk, h, Ne.symm h]
    · by_cases hk' : hd.1 = k' <;> simp [dget, dupd, hk, hk', h, Ne.symm h, ih]

theorem dget_eq_none_iff (l : List (K × V)) (k : K) :
    dget l k = none ↔ k ∉ l.map Prod.fst := by
  induction l with
  | nil => simp [dget]
  | cons hd t ih =>
    obtain ⟨k0, v0⟩ := hd
    by_cases hk : k0 = k
    · subst hk
      simp [dget]
    · simp [dget, hk, ih, Ne.symm hk]

theorem dupd_map_fst (l : List (K × V)) (k : K) (d0 : V) (g : V → V) :
    (dupd l k d0 g).map Prod.fst =
      if (dget l k).isSome then l.map Prod.fst else l.map Prod.fst ++ [k] := by
  induction l with
  | nil => simp [dget, dupd]
  | cons hd t ih =>
    by_cases hk : hd.1 = k
    · simp [dget, dupd, hk]
    · by_cases hp : (dget t k).isSome <;> simp [dget, dupd, hk, hp, ih]

theorem dupd_keys_nodup (l : List (K × V)) (k : K) (d0 : V) (g : V → V)
    (h : (l.map Prod.fst).Nodup) : ((dupd l k d0 g).map Prod.fst).Nodup := by
  rw [dupd_map_fst]
  by_cases hp : (dget l k).isSome
  · simpa [hp]
  · have hnone : dget l k = none := by
      cases hh : dget l k with
      | none => rfl
      | some v => exact absurd (by simp [hh]) hp
    have hnot : k ∉ l.map Prod.fst := (dget_eq_none_iff l k).mp hnone
    simp [hp, List.nodup_append, h, hnot]

end Dict

theorem natToDecAux_fuel (f1 f2 n : Nat) (h1 : n < f1) (h2 : n < f2) :
    natToDecAux f1 n = natToDecAux f2 n := by
  induction n using Nat.strong_induction_on generalizing f1 f2 with
  | _ n ih =>
    match f1, f2 with
    | g1 + 1, g2 + 1 =>
      by_cases hn : n < 10
      · simp [natToDecAux, hn]
      · have hdiv : n / 10 < n := Nat.div_lt_self (by omega) (by omega)
        simp only [natToDecAux, if_neg hn]
        rw [ih (n / 10) hdiv g1 g2 (by omega) (by omega)]

theorem natToDec_eq (n : Nat) :
    natToDec n = if n < 10 then [digChar n] else natToDec (n / 10) ++ [digChar (n % 10)] := by
  by_cases hn : n < 10
  · simp [natToDec, natToDecAux, hn]
  · have hdiv : n / 10 < n := Nat.div_lt_self (by omega) (by omega)
    rw [if_neg hn]
    have h1 : natToDec n = natToDecAux n (n / 10) ++ [digChar (n % 10)] := by
      simp only [natToDec, natToDecAux, if_neg hn]
    rw [h1, natToDecAux_fuel n (n / 10 + 1) (n / 10) (by omega) (by omega)]
    rfl

theorem natToDec_ne_nil (n : Nat) : natToDec n ≠ [] := by
  rw [natToDec_eq]
  by_cases hn : n < 10 <;> simp [hn]

theorem decDigit_digChar (d : Nat) (h : d < 10) : decDigit? (digChar d) = some d := by
  revert h
  revert d
  decide

/-- The digit-fold step of `decToNat?`. -/
def decStep (acc : Option Nat) (c : Char) : Option Nat :=
  match acc, decDigit? c with
  | some a, some d => some (a * 10 + d)
  | _, _ => none

theorem decFold_natToDec (n : Nat) :
    ∀ a : Nat, (natToDec n).foldl decStep (some a) =
      some (a * 10 ^ (natToDec n).length + n) := by
  induction n using Nat.strong_induction_on with
  | _ n ih =>
    intro a
    by_cases hn : n < 10
    · rw [natToDec_eq, if_pos hn]
      simp [List.foldl, decStep, decDigit_digChar n hn]
    · have hdiv : n / 10 < n := Nat.div_lt_self (by omega) (by omega)
      rw [natToDec_eq, if_neg hn]
      rw [List.foldl_append, ih (n / 10) hdiv a]
      have hlt : n % 10 < 10 := Nat.mod_lt _ (by omega)
      simp only [List.foldl, decStep, decDigit_digChar _ hlt]
      have hlen : (natToDec (n / 10) ++ [digChar (n % 10)]).length =
          (natToDec (n / 10)).length + 1 := by simp
      rw [hlen]
      have : a * 10 ^ ((natToDec (n / 10)).length + 1) =
          a * 10 ^ (natToDec (n / 10)).length * 10 := by ring
      rw [this]
      have hmod : (a * 10 ^ (natToDec (n / 10)).length + n / 10) * 10 + n % 10 =
          a * 10 ^ (natToDec (n / 10)).length * 10 + n := by
        have := Nat.div_add_mod n 10
        omega
      rw [hmod]

theorem decToNat_natToDec (n : Nat) : decToNat? (natToDec n) = some n := by
  unfold decToNat?
  rw [if_neg (by simp [natToDec_ne_nil n])]
  have h := decFold_natToDec n 0
  simpa [decStep] using h

theorem natToDec_head_digit (n : Nat) :
    ∃ d, d < 10 ∧ ∃ t, natToDec n = digChar d :: t := by
  induction n using Nat.strong_induction_on with
  | _ n ih =>
    by_cases hn : n < 10
    · exact ⟨n, hn, [], by rw [natToDec_eq, if_pos hn]⟩
    · have hdiv : n / 10 < n := Nat.div_lt_self (by omega) (by omega)
      obtain ⟨d, hd, t, ht⟩ := ih (n / 10) hdiv
      exact ⟨d, hd, t ++ [digChar (n % 10)], by rw [natToDec_eq, if_neg hn, ht]; simp⟩

theorem decToInt_intToDec (n : Int) : decToInt? (intToDec n) = some n := by
  obtain ⟨d, hd, t, ht⟩ := natToDec_head_digit n.natAbs
  have hdm : digChar d ≠ '-' := by
    intro hc
    have h1 := decDigit_digChar d hd
    rw [hc] at h1
    have h2 : decDigit? '-' = none := by decide
    rw [h2] at h1
    exact Option.noConfusion h1
  by_cases hneg : n < 0
  · have hrw : intToDec n = ⟨'-' :: natToDec n.natAbs⟩ := by simp [intToDec, hneg]
    have hstep : decToInt? ⟨'-' :: natToDec n.natAbs⟩ =
        (decToNat? (natToDec n.natAbs)).map (fun m => -(Int.ofNat m)) := by
      simp [decToInt?, decChars?]
    rw [hrw, hstep, decToNat_natToDec]
    simp only [Option.map_some', Int.ofNat_eq_coe]
    congr 1
    omega
  · have hrw : intToDec n = ⟨natToDec n.natAbs⟩ := by simp [intToDec, hneg]
    have hstep : decToInt? ⟨natToDec n.natAbs⟩ = decChars? (natToDec n.natAbs) := rfl
    rw [hrw, hstep, ht]
    simp only [decChars?, if_neg hdm]
    rw [← ht, decToNat_natToDec]
    simp only [Option.map_some', Int.ofNat_eq_coe]
    congr 1
    omega

/-- Price histogram of one stall kind, `{item_key: {price_key: quantity}}`.
Keys are `PyKey` because a freshly decoded snapshot uses `int` keys while
the JSON-loaded history uses decimal-string keys. -/
abbrev Hist := List (PyKey × List (PyKey × Int))

/-- One day's aggregate, `{"SELL": Hist, "BUY": Hist}`. -/
abbrev Snapshot := List (String × Hist)

/-- The history store, `{"YYYY-MM-DD": Snapshot}`. -/
abbrev Store := List (String × Snapshot)

instance instDecEqSH : DecidableEq (String × Hist) := inferInstance

instance instDecEqSnapshot : DecidableEq Snapshot := List.hasDecEq

instance instDecEqSS : DecidableEq (String × Snapshot) := instDecidableEqProd

instance instDecEqStore : DecidableEq Store := List.hasDecEq

/-- One slot write of `merge_history`'s date-present branch:
`history[today][stype][str(iid)][str(p)] = max(int(q), int(prev or 0))`
where `prev = history[today][stype][str(iid)].get(str(p))`.  The whole
day entry is rebuilt because the Python code mutates it in place. -/
def mergeSlotW (day : Snapshot) (stype : String) (iidS : PyKey) (pq : PyKey × Int) : Snapshot :=
  let pS := PyKey.s (pyStr pq.1)
  let h := (dget day stype).getD []
  let pm := (dget h iidS).getD []
  let prev := dget pm pS
  dset day stype (dset h iidS (dset pm pS (max pq.2 (prev.getD 0))))

/-- The `for iid, pm in imap.items()` body of `merge_history`:
`history[today][stype].setdefault(str(iid), {})` followed by the slot
loop over `pm.items()`. -/
def mergeIid (day : Snapshot) (stype : String) (ipm : PyKey × List (PyKey × Int)) : Snapshot :=
  let iidS := PyKey.s (pyStr ipm.1)
  let day1 := dset day stype (dsetdefault ((dget day stype).getD []) iidS [])
  ipm.2.foldl (fun d pq => mergeSlotW d stype iidS pq) day1

/-- The `for stype, imap in extracted.items()` body of `merge_history`:
`history[today].setdefault(stype, {})` followed by the item loop. -/
def mergeStype (day : Snapshot) (sim : String × Hist) : Snapshot :=
  let day1 := dsetdefault day sim.1 []
  sim.2.foldl (fun d ipm => mergeIid d sim.1 ipm) day1

/-- The date-present branch of `merge_history`, acting on the stored
entry `history[today]`. -/
def mergeDay (day : Snapshot) (extracted : Snapshot) : Snapshot :=
  extracted.foldl mergeStype day

/-- `merge_history(history, extracted)` from both scripts, with
`date.today()` passed explicitly as `today`: if the date is absent the
snapshot is bound verbatim, otherwise each `(stype, iid, price)` of the
snapshot is written under string keys with max-reconciliation. -/
def merge_history (history : Store) (today : String) (extracted : Snapshot) : Store :=
  match dget history today with
  | none => dset history today extracted
  | some day => dset history today (mergeDay day extracted)

/-- Stored quantity lookup `history_day[stype][k1][k2]` used to state the
merge contract. -/
def qval (day : Snapshot) (stype : String) (k1 k2 : PyKey) : Option Int :=
  (dget day stype).bind fun h => (dget h k1).bind fun pm => dget pm k2

/-- Is the stall-kind key present in the day entry? -/
def hasStype (day : Snapshot) (st : String) : Prop := (dget day st).isSome

/-- Is the item key present under the given stall kind? -/
def hasIid (day : Snapshot) (st : String) (k1 : PyKey) : Prop :=
  ((dget day st).bind fun h => dget h k1).isSome

instance (day : Snapshot) (st : String) : Decidable (hasStype day st) := by
  unfold hasStype
  infer_instance

instance (day : Snapshot) (st : String) (k1 : PyKey) : Decidable (hasIid day st k1) := by
  unfold hasIid
  infer_instance

theorem qval_stype_setdefault (day : Snapshot) (st : String) (st' : String) (k1 k2 : PyKey) :
    qval (dsetdefault day st []) st' k1 k2 = qval day st' k1 k2 := by
  by_cases hst : st' = st
  · subst hst
    unfold qval
    rw [dget_dsetdefault_self]
    cases hd : dget day st' with
    | none => simp [dget]
    | some h => simp
  · unfold qval
    rw [dget_dsetdefault_ne day st st' [] hst]

theorem qval_iid_setdefault (day : Snapshot) (st : String) (iidS : PyKey)
    (st' : String) (k1 k2 : PyKey) :
    qval (dset day st (dsetdefault ((dget day st).getD []) iidS [])) st' k1 k2 =
      qval day st' k1 k2 := by
  by_cases hst : st' = st
  · subst hst
    unfold qval
    rw [dget_dset_self]
    cases hd : dget day st' with
    | none =>
      simp only [hd, Option.getD_none, Option.none_bind, Option.some_bind]
      by_cases hk : k1 = iidS
      · subst hk
        rw [dget_dsetdefault_self]
        simp [dget]
      · rw [dget_dsetdefault_ne [] iidS k1 [] hk]
        simp [dget]
    | some h =>
      simp only [hd, Option.getD_some, Option.some_bind]
      by_cases hk : k1 = iidS
      · subst hk
        rw [dget_dsetdefault_self]
        cases hih : dget h k1 with
        | none => simp [dget]
        | some pm => simp
      · rw [dget_dsetdefault_ne h iidS k1 [] hk]
  · unfold qval
    rw [dget_dset_ne day st st' _ hst]

theorem qval_mergeSlotW_self (day : Snapshot) (st : String) (iidS : PyKey) (pq : PyKey × Int) :
    qval (mergeSlotW day st iidS pq) st iidS (PyKey.s (pyStr pq.1)) =
      some (max pq.2 ((qval day st iidS (PyKey.s (pyStr pq.1))).getD 0)) := by
  unfold mergeSlotW qval
  simp only [dget_dset_self, Option.some_bind]
  cases hd : dget day st with
  | none => simp [hd, dget]
  | some h =>
    cases hih : dget h iidS with
    | none => simp [hd, hih, dget]
    | some pm => simp [hd, hih]

theorem qval_mergeSlotW_other (day : Snapshot) (st : String) (iidS : PyKey) (pq : PyKey × Int)
    (st' : String) (k1 k2 : PyKey)
    (hne : st' ≠ st ∨ k1 ≠ iidS ∨ k2 ≠ PyKey.s (pyStr pq.1)) :
    qval (mergeSlotW day st iidS pq) st' k1 k2 = qval day st' k1 k2 := by
  unfold mergeSlotW qval
  by_cases hst : st' = st
  · subst hst
    simp only [dget_dset_self, Option.some_bind]
    by_cases hk1 : k1 = iidS
    · subst hk1
      simp only [dget_dset_self, Option.some_bind]
      have hk2 : k2 ≠ PyKey.s (pyStr pq.1) := by
        rcases hne with h | h | h
        · exact absurd rfl h
        · exact absurd rfl h
        · exact h
      rw [dget_dset_ne _ _ _ _ hk2]
      cases hd : dget day st' with
      | none => simp [dget]
      | some h =>
        cases hih : dget h k1 with
        | none => simp [hih, dget]
        | some pm => simp [hih]
    · rw [dget_dset_ne _ _ _ _ hk1]
      cases hd : dget day st' with
      | none => simp [dget]
      | some h => simp
  · rw [dget_dset_ne _ _ _ _ hst]

/-- Quantity lower bound at one coordinate of a day entry. -/
def QLB (day : Snapshot) (st : String) (k1 k2 : PyKey) (q : Int) : Prop :=
  ∃ v, qval day st k1 k2 = some v ∧ q ≤ v

theorem foldl_pres {α β : Type} (P : α → Prop) (f : α → β → α) (l : List β)
    (h : ∀ a b, b ∈ l → P a → P (f a b)) :
    ∀ a, P a → P (l.foldl f a) := by
  induction l with
  | nil => intro a ha; simpa using ha
  | cons b t ih =>
    intro a ha
    simp only [List.foldl_cons]
    exact ih (fun a' b' hb' => h a' b' (List.mem_cons_of_mem _ hb')) (f a b)
      (h a b (List.mem_cons_self _ _) ha)

theorem hasStype_dset (day : Snapshot) (st : String) (x : Hist) (st0 : String)
    (h : hasStype day st0) : hasStype (dset day st x) st0 := by
  unfold hasStype at h ⊢
  by_cases hs : st0 = st
  · subst hs
    rw [dget_dset_self]
    rfl
  · rw [dget_dset_ne _ _ _ _ hs]
    exact h

theorem hasStype_dsetdefault (day : Snapshot) (st : String) (x : Hist) (st0 : String)
    (h : hasStype day st0) : hasStype (dsetdefault day st x) st0 := by
  unfold hasStype at h ⊢
  by_cases hs : st0 = st
  · subst hs
    rw [dget_dsetdefault_self]
    rfl
  · rw [dget_dsetdefault_ne _ _ _ _ hs]
    exact h

theorem hasIid_dset_hist (day : Snapshot) (st : String) (iidS : PyKey) (x : List (PyKey × Int))
    (st0 : String) (k0 : PyKey) (h : hasIid day st0 k0) :
    hasIid (dset day st (dset ((dget day st).getD []) iidS x)) st0 k0 := by
  unfold hasIid at h ⊢
  by_cases hs : st0 = st
  · subst hs
    rw [dget_dset_self, Option.some_bind]
    cases hd : dget day st0 with
    | none => simp [hd] at h
    | some hh =>
      rw [hd] at h
      simp only [Option.some_bind] at h
      simp only [hd, Option.getD_some]
      by_cases hk : k0 = iidS
      · subst hk
        rw [dget_dset_self]
        rfl
      · rw [dget_dset_ne _ _ _ _ hk]
        exact h
  · rw [dget_dset_ne _ _ _ _ hs]
    exact h

theorem hasIid_dsetdefault_hist (day : Snapshot) (st : String) (iidS : PyKey)
    (st0 : String) (k0 : PyKey) (h : hasIid day st0 k0) :
    hasIid (dset day st (dsetdefault ((dget day st).getD []) iidS [])) st0 k0 := by
  unfold hasIid at h ⊢
  by_cases hs : st0 = st
  · subst hs
    rw [dget_dset_self, Option.some_bind]
    cases hd : dget day st0 with
    | none => simp [hd] at h
    | some hh =>
      rw [hd] at h
      simp only [Option.some_bind] at h
      simp only [hd, Option.getD_some]
      by_cases hk : k0 = iidS
      · subst hk
        rw [dget_dsetdefault_self]
        rfl
      · rw [dget_dsetdefault_ne _ _ _ _ hk]
        exact h
  · rw [dget_dset_ne _ _ _ _ hs]
    exact h

theorem hasStype_mergeSlotW (day : Snapshot) (st : String) (iidS : PyKey) (pq : PyKey × Int)
    (st0 : String) (h : hasStype day st0) : hasStype (mergeSlotW day st iidS pq) st0 :=
  hasStype_dset day st _ st0 h

theorem hasIid_mergeSlotW (day : Snapshot) (st : String) (iidS : PyKey) (pq : PyKey × Int)
    (st0 : String) (k0 : PyKey) (h : hasIid day st0 k0) :
    hasIid (mergeSlotW day st iidS pq) st0 k0 :=
  hasIid_dset_hist day st iidS _ st0 k0 h

theorem QLB_mergeSlotW (day : Snapshot) (st : String) (iidS : PyKey) (pq : PyKey × Int)
    (st0 : String) (k0 k0' : PyKey) (q0 : Int) (h : QLB day st0 k0 k0' q0) :
    QLB (mergeSlotW day st iidS pq) st0 k0 k0' q0 := by
  obtain ⟨v, hv, hq⟩ := h
  by_cases heq : st0 = st ∧ k0 = iidS ∧ k0' = PyKey.s (pyStr pq.1)
  · obtain ⟨h1, h2, h3⟩ := heq
    subst h1; subst h2; subst h3
    refine ⟨max pq.2 v, ?_, le_trans hq (le_max_right _ _)⟩
    rw [qval_mergeSlotW_self, hv]
    rfl
  · refine ⟨v, ?_, hq⟩
    rw [qval_mergeSlotW_other day st iidS pq st0 k0 k0' ?_]
    · exact hv
    · by_cases a1 : st0 = st
      · by_cases a2 : k0 = iidS
        · exact Or.inr (Or.inr (fun a3 => heq ⟨a1, a2, a3⟩))
        · exact Or.inr (Or.inl a2)
      · exact Or.inl a1

theorem hasIid_stype_dsetdefault (day : Snapshot) (st : String)
    (st0 : String) (k0 : PyKey) (h : hasIid day st0 k0) :
    hasIid (dsetdefault day st []) st0 k0 := by
  unfold hasIid at h ⊢
  by_cases hs : st0 = st
  · subst hs
    rw [dget_dsetdefault_self, Option.some_bind]
    cases hd : dget day st0 with
    | none => simp [hd] at h
    | some hh =>
      rw [hd] at h
      simpa [hd] using h
  · rw [dget_dsetdefault_ne _ _ _ _ hs]
    exact h

theorem hasStype_mergeIid (day : Snapshot) (st : String) (ipm : PyKey × List (PyKey × Int))
    (st0 : String) (h : hasStype day st0) : hasStype (mergeIid day st ipm) st0 := by
  unfold mergeIid
  exact foldl_pres _ _ _ (fun d pq _ hp => hasStype_mergeSlotW d st _ pq st0 hp) _
    (hasStype_dset day st _ st0 h)

theorem hasIid_mergeIid (day : Snapshot) (st : String) (ipm : PyKey × List (PyKey × Int))
    (st0 : String) (k0 : PyKey) (h : hasIid day st0 k0) :
    hasIid (mergeIid day st ipm) st0 k0 := by
  unfold mergeIid
  exact foldl_pres _ _ _ (fun d pq _ hp => hasIid_mergeSlotW d st _ pq st0 k0 hp) _
    (hasIid_dsetdefault_hist day st _ st0 k0 h)

theorem QLB_mergeIid (day : Snapshot) (st : String) (ipm : PyKey × List (PyKey × Int))
    (st0 : String) (k0 k0' : PyKey) (q0 : Int) (h : QLB day st0 k0 k0' q0) :
    QLB (mergeIid day st ipm) st0 k0 k0' q0 := by
  unfold mergeIid
  refine foldl_pres _ _ _ (fun d pq _ hp => QLB_mergeSlotW d st _ pq st0 k0 k0' q0 hp) _ ?_
  obtain ⟨v, hv, hq⟩ := h
  exact ⟨v, by rw [qval_iid_setdefault]; exact hv, hq⟩

theorem hasStype_mergeStype (day : Snapshot) (sim : String × Hist)
    (st0 : String) (h : hasStype day st0) : hasStype (mergeStype day sim) st0 := by
  unfold mergeStype
  exact foldl_pres _ _ _ (fun d ipm _ hp => hasStype_mergeIid d sim.1 ipm st0 hp) _
    (hasStype_dsetdefault day sim.1 [] st0 h)

theorem hasIid_mergeStype (day : Snapshot) (sim : String × Hist)
    (st0 : String) (k0 : PyKey) (h : hasIid day st0 k0) :
    hasIid (mergeStype day sim) st0 k0 := by
  unfold mergeStype
  exact foldl_pres _ _ _ (fun d ipm _ hp => hasIid_mergeIid d sim.1 ipm st0 k0 hp) _
    (hasIid_stype_dsetdefault day sim.1 st0 k0 h)

theorem QLB_mergeStype (day : Snapshot) (sim : String × Hist)
    (st0 : String) (k0 k0' : PyKey) (q0 : Int) (h : QLB day st0 k0 k0' q0) :
    QLB (mergeStype day sim) st0 k0 k0' q0 := by
  unfold mergeStype
  refine foldl_pres _ _ _ (fun d ipm _ hp => QLB_mergeIid d sim.1 ipm st0 k0 k0' q0 hp) _ ?_
  obtain ⟨v, hv, hq⟩ := h
  exact ⟨v, by rw [qval_stype_setdefault]; exact hv, hq⟩

/-- All slot entries of `entries` are dominated (present with at least
their quantity) at `(st, iidS)` in `day`. -/
def PmDom (day : Snapshot) (st : String) (iidS : PyKey) (entries : List (PyKey × Int)) : Prop :=
  ∀ pq ∈ entries, QLB day st iidS (PyKey.s (pyStr pq.1)) pq.2

/-- The item entry `ipm` is dominated at stall kind `st` in `day`. -/
def IidDom (day : Snapshot) (st : String) (ipm : PyKey × List (PyKey × Int)) : Prop :=
  hasIid day st (PyKey.s (pyStr ipm.1)) ∧ PmDom day st (PyKey.s (pyStr ipm.1)) ipm.2

/-- The stall-kind entry `sim` is dominated in `day`. -/
def StypeDom (day : Snapshot) (sim : String × Hist) : Prop :=
  hasStype day sim.1 ∧ ∀ ipm ∈ sim.2, IidDom day sim.1 ipm

/-- Every coordinate of the snapshot `s` is dominated in `day`: the state
reached after merging `s` into a present date, from which a second merge
of `s` changes nothing. -/
def Dominates (day s : Snapshot) : Prop := ∀ sim ∈ s, StypeDom day sim

theorem IidDom_mergeSlotW (day : Snapshot) (st : String) (iidS : PyKey) (pq : PyKey × Int)
    (st0 : String) (ipm : PyKey × List (PyKey × Int)) (h : IidDom day st0 ipm) :
    IidDom (mergeSlotW day st iidS pq) st0 ipm :=
  ⟨hasIid_mergeSlotW day st iidS pq st0 _ h.1,
   fun pq0 hm => QLB_mergeSlotW day st iidS pq st0 _ _ _ (h.2 pq0 hm)⟩

theorem IidDom_mergeIid (day : Snapshot) (st : String) (ipm0 : PyKey × List (PyKey × Int))
    (st0 : String) (ipm : PyKey × List (PyKey × Int)) (h : IidDom day st0 ipm) :
    IidDom (mergeIid day st ipm0) st0 ipm :=
  ⟨hasIid_mergeIid day st ipm0 st0 _ h.1,
   fun pq0 hm => QLB_mergeIid day st ipm0 st0 _ _ _ (h.2 pq0 hm)⟩

theorem StypeDom_mergeIid (day : Snapshot) (st : String) (ipm0 : PyKey × List (PyKey × Int))
    (sim : String × Hist) (h : StypeDom day sim) :
    StypeDom (mergeIid day st ipm0) sim :=
  ⟨hasStype_mergeIid day st ipm0 sim.1 h.1,
   fun ipm hm => IidDom_mergeIid day st ipm0 sim.1 ipm (h.2 ipm hm)⟩

theorem StypeDom_mergeStype (day : Snapshot) (sim0 : String × Hist)
    (sim : String × Hist) (h : StypeDom day sim) :
    StypeDom (mergeStype day sim0) sim :=
  ⟨hasStype_mergeStype day sim0 sim.1 h.1,
   fun ipm hm => ⟨hasIid_mergeStype day sim0 sim.1 _ (h.2 ipm hm).1,
     fun pq hpq => QLB_mergeStype day sim0 sim.1 _ _ _ ((h.2 ipm hm).2 pq hpq)⟩⟩

theorem PmDom_foldl (st : String) (iidS : PyKey) (entries : List (PyKey × Int)) :
    ∀ day : Snapshot,
      PmDom (entries.foldl (fun d pq => mergeSlotW d st iidS pq) day) st iidS entries := by
  induction entries with
  | nil => intro day pq hm; simp at hm
  | cons pq0 t ih =>
    intro day pq hm
    simp only [List.foldl_cons]
    rcases List.mem_cons.mp hm with h | h
    · subst h
      refine foldl_pres (fun d => QLB d st iidS (PyKey.s (pyStr pq.1)) pq.2) _ t
        (fun d b _ hp => QLB_mergeSlotW d st iidS b st iidS _ _ hp) _ ?_
      refine ⟨max pq.2 ((qval day st iidS (PyKey.s (pyStr pq.1))).getD 0), ?_, le_max_left _ _⟩
      exact qval_mergeSlotW_self day st iidS pq
    · exact ih (mergeSlotW day st iidS pq0) pq h

theorem IidDom_mergeIid_self (day : Snapshot) (st : String)
    (ipm : PyKey × List (PyKey × Int)) : IidDom (mergeIid day st ipm) st ipm := by
  constructor
  · unfold mergeIid
    have hbase : hasIid (dset day st (dsetdefault ((dget day st).getD [])
        (PyKey.s (pyStr ipm.1)) [])) st (PyKey.s (pyStr ipm.1)) := by
      unfold hasIid
      rw [dget_dset_self, Option.some_bind, dget_dsetdefault_self]
      rfl
    exact foldl_pres (fun d => hasIid d st (PyKey.s (pyStr ipm.1))) _ _
      (fun d pq _ hp => hasIid_mergeSlotW d st _ pq st _ hp) _ hbase
  · unfold mergeIid
    intro pq hm
    exact PmDom_foldl st (PyKey.s (pyStr ipm.1)) ipm.2 _ pq hm

theorem StypeDom_mergeStype_self (day : Snapshot) (sim : String × Hist) :
    StypeDom (mergeStype day sim) sim := by
  constructor
  · unfold mergeStype
    have hbase : hasStype (dsetdefault day sim.1 []) sim.1 := by
      unfold hasStype
      rw [dget_dsetdefault_self]
      rfl
    exact foldl_pres (fun d => hasStype d sim.1) _ _
      (fun d ipm _ hp => hasStype_mergeIid d sim.1 ipm sim.1 hp) _ hbase
  · unfold mergeStype
    have main : ∀ (entries : List (PyKey × List (PyKey × Int))), ∀ day0 : Snapshot,
        ∀ ipm ∈ entries,
        IidDom (entries.foldl (fun d i => mergeIid d sim.1 i) day0) sim.1 ipm := by
      intro entries
      induction entries with
      | nil => intro day0 ipm hm; simp at hm
      | cons i0 t ih =>
        intro day0 ipm hm
        simp only [List.foldl_cons]
        rcases List.mem_cons.mp hm with h | h
        · subst h
          exact foldl_pres (fun d => IidDom d sim.1 ipm) _ t
            (fun d b _ hp => IidDom_mergeIid d sim.1 b sim.1 ipm hp) _
            (IidDom_mergeIid_self day0 sim.1 ipm)
        · exact ih (mergeIid day0 sim.1 i0) ipm h
    intro ipm hm
    exact main sim.2 _ ipm hm

theorem Dominates_mergeDay (day s : Snapshot) : Dominates (mergeDay day s) s := by
  unfold mergeDay
  have main : ∀ (entries : Snapshot), ∀ day0 : Snapshot, ∀ sim ∈ entries,
      StypeDom (entries.foldl mergeStype day0) sim := by
    intro entries
    induction entries with
    | nil => intro day0 sim hm; simp at hm
    | cons s0 t ih =>
      intro day0 sim hm
      simp only [List.foldl_cons]
      rcases List.mem_cons.mp hm with h | h
      · subst h
        exact foldl_pres (fun d => StypeDom d sim) _ t
          (fun d b _ hp => StypeDom_mergeStype d b sim hp) _
          (StypeDom_mergeStype_self day0 sim)
      · exact ih (mergeStype day0 s0) sim h
  intro sim hm
  exact main s day sim hm

theorem foldl_fix {α β : Type} (f : α → β → α) (l : List β) (a : α)
    (h : ∀ b ∈ l, f a b = a) : l.foldl f a = a := by
  induction l with
  | nil => rfl
  | cons b t ih =>
    simp only [List.foldl_cons, h b (List.mem_cons_self _ _)]
    exact ih (fun b' hb' => h b' (List.mem_cons_of_mem _ hb'))

theorem mergeSlotW_fix (day : Snapshot) (st : String) (iidS : PyKey) (pq : PyKey × Int)
    (h : QLB day st iidS (PyKey.s (pyStr pq.1)) pq.2) :
    mergeSlotW day st iidS pq = day := by
  obtain ⟨v, hv, hq⟩ := h
  unfold qval at hv
  cases hd : dget day st with
  | none => rw [hd] at hv; simp at hv
  | some hh =>
    rw [hd] at hv
    simp only [Option.some_bind] at hv
    cases hih : dget hh iidS with
    | none => rw [hih] at hv; simp at hv
    | some pm =>
      rw [hih] at hv
      simp only [Option.some_bind] at hv
      unfold mergeSlotW
      simp only [hd, Option.getD_some, hih, hv, Option.getD_some]
      rw [max_eq_right hq, dset_get_self _ _ _ hv, dset_get_self _ _ _ hih,
        dset_get_self _ _ _ hd]

theorem mergeIid_fix (day : Snapshot) (st : String) (ipm : PyKey × List (PyKey × Int))
    (h : IidDom day st ipm) : mergeIid day st ipm = day := by
  obtain ⟨h1, h2⟩ := h
  unfold hasIid at h1
  cases hd : dget day st with
  | none => rw [hd] at h1; simp at h1
  | some hh =>
    rw [hd] at h1
    simp only [Option.some_bind] at h1
    simp only [mergeIid]
    have hsd : dsetdefault ((dget day st).getD []) (PyKey.s (pyStr ipm.1)) [] = hh := by
      rw [hd]
      exact dsetdefault_present hh _ [] h1
    rw [hsd, dset_get_self _ _ _ hd]
    exact foldl_fix _ _ _ (fun pq hm => mergeSlotW_fix day st _ pq (h2 pq hm))

theorem mergeStype_fix (day : Snapshot) (sim : String × Hist)
    (h : StypeDom day sim) : mergeStype day sim = day := by
  obtain ⟨h1, h2⟩ := h
  unfold mergeStype
  rw [dsetdefault_present day sim.1 [] h1]
  exact foldl_fix _ _ _ (fun ipm hm => mergeIid_fix day sim.1 ipm (h2 ipm hm))

theorem mergeDay_fix (day s : Snapshot) (h : Dominates day s) : mergeDay day s = day := by
  unfold mergeDay
  exact foldl_fix _ _ _ (fun sim hm => mergeStype_fix day sim (h sim hm))

theorem mergeDay_idem (day s : Snapshot) : mergeDay (mergeDay day s) s = mergeDay day s :=
  mergeDay_fix (mergeDay day s) s (Dominates_mergeDay day s)

theorem dset_dset {K V : Type} [DecidableEq K] (l : List (K × V)) (k : K) (v w : V) :
    dset (dset l k v) k w = dset l k w := by
  induction l with
  | nil => simp [dset]
  | cons hd t ih =>
    by_cases hk : hd.1 = k <;> simp [dset, hk, ih]

/-- Claim C1 (counterexample): merge is not idempotent as stated for
every store: merging the same snapshot twice into an initially empty
store differs from merging it once — the first merge stores the
snapshot verbatim with integer keys, and the second adds parallel
decimal-string-keyed entries next to them. -/
theorem claim_C1_counterexample :
    merge_history (merge_history [] "2025-11-05"
        [("BUY", []), ("SELL", [(PyKey.i 7, [(PyKey.i 100, 5)])])])
      "2025-11-05" [("BUY", []), ("SELL", [(PyKey.i 7, [(PyKey.i 100, 5)])])] ≠
    merge_history [] "2025-11-05"
      [("BUY", []), ("SELL", [(PyKey.i 7, [(PyKey.i 100, 5)])])] := by
  decide

/-- Claim C1 (amended): merge is idempotent whenever the merge date is
already present in the store — `merge(merge(store, d, s), d, s) =
merge(store, d, s)` for every store containing an entry for `d`, every
snapshot `s`.  (Equivalently: from the second merge onwards re-merging
the same snapshot is the identity; only the very first merge of a fresh
date changes the key representation.) -/
theorem claim_C1_amended (history : Store) (today : String) (s : Snapshot)
    (h : (dget history today).isSome) :
    merge_history (merge_history history today s) today s =
      merge_history history today s := by
  cases hd : dget history today with
  | none => rw [hd] at h; simp at h
  | some day =>
    have h1 : merge_history history today s = dset history today (mergeDay day s) := by
      unfold merge_history
      rw [hd]
    rw [h1]
    have h2 : dget (dset history today (mergeDay day s)) today = some (mergeDay day s) :=
      dget_dset_self _ _ _
    unfold merge_history
    simp only [h2, mergeDay_idem, dset_dset]

/-- Witness for C1 (amended) at a concrete store whose date is present. -/
theorem claim_C1_witness :
    merge_history (merge_history
        [("2025-11-05", [("SELL", [(PyKey.s "7", [(PyKey.s "100", 2)])])])]
        "2025-11-05" [("BUY", []), ("SELL", [(PyKey.i 7, [(PyKey.i 100, 5)])])])
      "2025-11-05" [("BUY", []), ("SELL", [(PyKey.i 7, [(PyKey.i 100, 5)])])] =
    merge_history [("2025-11-05", [("SELL", [(PyKey.s "7", [(PyKey.s "100", 2)])])])]
      "2025-11-05" [("BUY", []), ("SELL", [(PyKey.i 7, [(PyKey.i 100, 5)])])] :=
  claim_C1_amended _ _ _ (by decide)

/-- Claim C7: the merge only ever creates or modifies the entry of the
merge date itself; for every other date `d` the stored entry (all of its
stall kinds, items, prices and quantities) is unchanged. -/
theorem claim_C7 (history : Store) (today : String) (s : Snapshot)
    (d : String) (hne : d ≠ today) :
    dget (merge_history history today s) d = dget history d := by
  unfold merge_history
  cases hd : dget history today with
  | none => exact dget_dset_ne _ _ _ _ hne
  | some day => exact dget_dset_ne _ _ _ _ hne

/-- Witness for C7 at a concrete two-day store. -/
theorem claim_C7_witness :
    dget (merge_history [("2025-11-04", [("SELL", [(PyKey.s "7", [(PyKey.s "9", 1)])])])]
        "2025-11-05" [("BUY", []), ("SELL", [(PyKey.i 7, [(PyKey.i 100, 5)])])])
      "2025-11-04" =
    dget [("2025-11-04", [("SELL", [(PyKey.s "7", [(PyKey.s "9", 1)])])])] "2025-11-04" :=
  claim_C7 _ _ _ _ (by decide)

theorem qval_pm_foldl_frame (st : String) (iidS : PyKey) (entries : List (PyKey × Int))
    (day : Snapshot) (st' : String) (k1 k2 : PyKey) (hne : st' ≠ st ∨ k1 ≠ iidS) :
    qval (entries.foldl (fun d pq => mergeSlotW d st iidS pq) day) st' k1 k2 =
      qval day st' k1 k2 := by
  refine foldl_pres (fun d => qval d st' k1 k2 = qval day st' k1 k2) _ entries
    (fun d pq _ hp => ?_) day rfl
  show qval (mergeSlotW d st iidS pq) st' k1 k2 = qval day st' k1 k2
  rw [qval_mergeSlotW_other d st iidS pq st' k1 k2 ?_]
  · exact hp
  · rcases hne with h | h
    · exact Or.inl h
    · exact Or.inr (Or.inl h)

theorem qval_pm_foldl_key_frame (st : String) (iidS : PyKey) (entries : List (PyKey × Int))
    (day : Snapshot) (k2 : PyKey) (hk : ∀ pq ∈ entries, k2 ≠ PyKey.s (pyStr pq.1)) :
    qval (entries.foldl (fun d pq => mergeSlotW d st iidS pq) day) st iidS k2 =
      qval day st iidS k2 := by
  induction entries generalizing day with
  | nil => rfl
  | cons pq0 t ih =>
    simp only [List.foldl_cons]
    rw [ih _ (fun pq hm => hk pq (List.mem_cons_of_mem _ hm))]
    exact qval_mergeSlotW_other day st iidS pq0 st iidS k2
      (Or.inr (Or.inr (hk pq0 (List.mem_cons_self _ _))))

theorem qval_pm_foldl_self (st : String) (iidS : PyKey) (entries : List (PyKey × Int))
    (day : Snapshot) (hnd : (entries.map (fun pq => pyStr pq.1)).Nodup)
    (pq : PyKey × Int) (hm : pq ∈ entries) :
    qval (entries.foldl (fun d x => mergeSlotW d st iidS x) day) st iidS
        (PyKey.s (pyStr pq.1)) =
      some (max pq.2 ((qval day st iidS (PyKey.s (pyStr pq.1))).getD 0)) := by
  induction entries generalizing day with
  | nil => simp at hm
  | cons x t ih =>
    simp only [List.map_cons, List.nodup_cons] at hnd
    simp only [List.foldl_cons]
    rcases List.mem_cons.mp hm with h | h
    · subst h
      rw [qval_pm_foldl_key_frame st iidS t _ _ ?_]
      · exact qval_mergeSlotW_self day st iidS pq
      · intro e he hc
        have hmem : pyStr e.1 ∈ t.map (fun y => pyStr y.1) := List.mem_map.mpr ⟨e, he, rfl⟩
        rw [← PyKey.s.inj hc] at hmem
        exact hnd.1 hmem
    · have hne : PyKey.s (pyStr pq.1) ≠ PyKey.s (pyStr x.1) := by
        intro hc
        have hmem : pyStr pq.1 ∈ t.map (fun y => pyStr y.1) := List.mem_map.mpr ⟨pq, h, rfl⟩
        rw [PyKey.s.inj hc] at hmem
        exact hnd.1 hmem
      rw [ih _ hnd.2 h, qval_mergeSlotW_other day st iidS x st iidS _
        (Or.inr (Or.inr hne))]

theorem qval_mergeIid_self (day : Snapshot) (st : String) (ipm : PyKey × List (PyKey × Int))
    (hnd : (ipm.2.map (fun pq => pyStr pq.1)).Nodup) (pq : PyKey × Int) (hm : pq ∈ ipm.2) :
    qval (mergeIid day st ipm) st (PyKey.s (pyStr ipm.1)) (PyKey.s (pyStr pq.1)) =
      some (max pq.2
        ((qval day st (PyKey.s (pyStr ipm.1)) (PyKey.s (pyStr pq.1))).getD 0)) := by
  simp only [mergeIid]
  rw [qval_pm_foldl_self st (PyKey.s (pyStr ipm.1)) ipm.2 _ hnd pq hm,
    qval_iid_setdefault]

theorem qval_mergeIid_frame (day : Snapshot) (st : String) (ipm : PyKey × List (PyKey × Int))
    (st' : String) (k1 k2 : PyKey) (hne : st' ≠ st ∨ k1 ≠ PyKey.s (pyStr ipm.1)) :
    qval (mergeIid day st ipm) st' k1 k2 = qval day st' k1 k2 := by
  simp only [mergeIid]
  rw [qval_pm_foldl_frame st (PyKey.s (pyStr ipm.1)) ipm.2 _ st' k1 k2 hne,
    qval_iid_setdefault]

theorem qval_stype_foldl_key_frame (st : String) (entries : Hist) (day : Snapshot)
    (k1 k2 : PyKey) (hk : ∀ i ∈ entries, k1 ≠ PyKey.s (pyStr i.1)) :
    qval (entries.foldl (fun d i => mergeIid d st i) day) st k1 k2 =
      qval day st k1 k2 := by
  induction entries generalizing day with
  | nil => rfl
  | cons i0 t ih =>
    simp only [List.foldl_cons]
    rw [ih _ (fun i hm => hk i (List.mem_cons_of_mem _ hm))]
    exact qval_mergeIid_frame day st i0 st k1 k2
      (Or.inr (hk i0 (List.mem_cons_self _ _)))

theorem qval_stype_foldl_st_frame (st : String) (entries : Hist) (day : Snapshot)
    (st' : String) (k1 k2 : PyKey) (hne : st' ≠ st) :
    qval (entries.foldl (fun d i => mergeIid d st i) day) st' k1 k2 =
      qval day st' k1 k2 := by
  induction entries generalizing day with
  | nil => rfl
  | cons i0 t ih =>
    simp only [List.foldl_cons]
    rw [ih _, qval_mergeIid_frame day st i0 st' k1 k2 (Or.inl hne)]

theorem qval_stype_foldl_self (st : String) (entries : Hist) (day : Snapshot)
    (hnd : (entries.map (fun i => pyStr i.1)).Nodup)
    (ipm : PyKey × List (PyKey × Int)) (hm : ipm ∈ entries)
    (hpm : (ipm.2.map (fun pq => pyStr pq.1)).Nodup) (pq : PyKey × Int) (hq : pq ∈ ipm.2) :
    qval (entries.foldl (fun d i => mergeIid d st i) day) st
        (PyKey.s (pyStr ipm.1)) (PyKey.s (pyStr pq.1)) =
      some (max pq.2
        ((qval day st (PyKey.s (pyStr ipm.1)) (PyKey.s (pyStr pq.1))).getD 0)) := by
  induction entries generalizing day with
  | nil => simp at hm
  | cons i0 t ih =>
    simp only [List.map_cons, List.nodup_cons] at hnd
    simp only [List.foldl_cons]
    rcases List.mem_cons.mp hm with h | h
    · subst h
      rw [qval_stype_foldl_key_frame st t _ _ _ ?_]
      · exact qval_mergeIid_self day st ipm hpm pq hq
      · intro i hi hc
        have hmem : pyStr i.1 ∈ t.map (fun y => pyStr y.1) := List.mem_map.mpr ⟨i, hi, rfl⟩
        rw [← PyKey.s.inj hc] at hmem
        exact hnd.1 hmem
    · have hne : PyKey.s (pyStr ipm.1) ≠ PyKey.s (pyStr i0.1) := by
        intro hc
        have hmem : pyStr ipm.1 ∈ t.map (fun y => pyStr y.1) := List.mem_map.mpr ⟨ipm, h, rfl⟩
        rw [PyKey.s.inj hc] at hmem
        exact hnd.1 hmem
      rw [ih _ hnd.2 h, qval_mergeIid_frame day st i0 st _ _ (Or.inr hne)]

theorem qval_mergeStype_self (day : Snapshot) (sim : String × Hist)
    (hnd : (sim.2.map (fun i => pyStr i.1)).Nodup)
    (ipm : PyKey × List (PyKey × Int)) (hm : ipm ∈ sim.2)
    (hpm : (ipm.2.map (fun pq => pyStr pq.1)).Nodup) (pq : PyKey × Int) (hq : pq ∈ ipm.2) :
    qval (mergeStype day sim) sim.1 (PyKey.s (pyStr ipm.1)) (PyKey.s (pyStr pq.1)) =
      some (max pq.2
        ((qval day sim.1 (PyKey.s (pyStr ipm.1)) (PyKey.s (pyStr pq.1))).getD 0)) := by
  simp only [mergeStype]
  rw [qval_stype_foldl_self sim.1 sim.2 _ hnd ipm hm hpm pq hq, qval_stype_setdefault]

theorem qval_mergeStype_frame (day : Snapshot) (sim : String × Hist)
    (st' : String) (k1 k2 : PyKey) (hne : st' ≠ sim.1) :
    qval (mergeStype day sim) st' k1 k2 = qval day st' k1 k2 := by
  simp only [mergeStype]
  rw [qval_stype_foldl_st_frame sim.1 sim.2 _ st' k1 k2 hne, qval_stype_setdefault]

/-- Well-formedness of a day snapshot as the spec's data model gives it:
stall-kind keys are distinct, and within each stall kind the item keys
(and each item's price keys) have pairwise distinct `str()` images --
true in particular of every decoder output, whose keys are distinct
integers. -/
def SnapWF (s : Snapshot) : Prop :=
  (s.map Prod.fst).Nodup ∧ ∀ sim ∈ s, (sim.2.map (fun ipm => pyStr ipm.1)).Nodup ∧
    ∀ ipm ∈ sim.2, (ipm.2.map (fun pq => pyStr pq.1)).Nodup

instance (s : Snapshot) : Decidable (SnapWF s) := by
  unfold SnapWF
  infer_instance

theorem qval_day_foldl_st_frame (entries : Snapshot) (day : Snapshot)
    (st' : String) (k1 k2 : PyKey) (hk : ∀ sim ∈ entries, st' ≠ sim.1) :
    qval (entries.foldl mergeStype day) st' k1 k2 = qval day st' k1 k2 := by
  induction entries generalizing day with
  | nil => rfl
  | cons s0 t ih =>
    simp only [List.foldl_cons]
    rw [ih _ (fun sim hm => hk sim (List.mem_cons_of_mem _ hm)),
      qval_mergeStype_frame day s0 st' k1 k2 (hk s0 (List.mem_cons_self _ _))]

theorem qval_day_foldl_self (entries : Snapshot) (day : Snapshot)
    (hnd : (entries.map Prod.fst).Nodup)
    (hall : ∀ sim ∈ entries, (sim.2.map (fun i => pyStr i.1)).Nodup ∧
      ∀ ipm ∈ sim.2, (ipm.2.map (fun pq => pyStr pq.1)).Nodup)
    (sim : String × Hist) (hm : sim ∈ entries)
    (ipm : PyKey × List (PyKey × Int)) (hi : ipm ∈ sim.2)
    (pq : PyKey × Int) (hq : pq ∈ ipm.2) :
    qval (entries.foldl mergeStype day) sim.1
        (PyKey.s (pyStr ipm.1)) (PyKey.s (pyStr pq.1)) =
      some (max pq.2
        ((qval day sim.1 (PyKey.s (pyStr ipm.1)) (PyKey.s (pyStr pq.1))).getD 0)) := by
  induction entries generalizing day with
  | nil => simp at hm
  | cons s0 t ih =>
    simp only [List.map_cons, List.nodup_cons] at hnd
    simp only [List.foldl_cons]
    rcases List.mem_cons.mp hm with h | h
    · subst h
      rw [qval_day_foldl_st_frame t _ _ _ _ ?_]
      · obtain ⟨hnds, hpms⟩ := hall sim (List.mem_cons_self _ _)
        exact qval_mergeStype_self day sim hnds ipm hi (hpms ipm hi) pq hq
      · intro sim' hm' hc
        exact hnd.1 (hc ▸ List.mem_map.mpr ⟨sim', hm', rfl⟩)
    · rcases eq_or_ne sim.1 s0.1 with hst | hst
      · exact absurd (hst ▸ List.mem_map.mpr ⟨sim, h, rfl⟩) hnd.1
      · rw [ih _ hnd.2 (fun sim' hm' => hall sim' (List.mem_cons_of_mem _ hm')) h,
          qval_mergeStype_frame day s0 sim.1 _ _ hst]

theorem qval_mergeDay_self (day s : Snapshot) (hwf : SnapWF s)
    (sim : String × Hist) (hm : sim ∈ s)
    (ipm : PyKey × List (PyKey × Int)) (hi : ipm ∈ sim.2)
    (pq : PyKey × Int) (hq : pq ∈ ipm.2) :
    qval (mergeDay day s) sim.1 (PyKey.s (pyStr ipm.1)) (PyKey.s (pyStr pq.1)) =
      some (max pq.2
        ((qval day sim.1 (PyKey.s (pyStr ipm.1)) (PyKey.s (pyStr pq.1))).getD 0)) := by
  unfold mergeDay
  exact qval_day_foldl_self s day hwf.1 hwf.2 sim hm ipm hi pq hq

/-- Claim C2: if the merge date is absent from the store, the snapshot is
inserted verbatim as that date's entry; if it is present then for each
stall kind, item and `(price, quantity)` pair of the (well-formed)
snapshot, the stored quantity for that item and price on that date — at
the string keys `str(iid)`, `str(p)` the code writes — becomes
`max(existing_quantity_or_0, quantity)`. -/
theorem claim_C2 (history : Store) (today : String) (s : Snapshot) (hwf : SnapWF s) :
    (dget history today = none → merge_history history today s = dset history today s) ∧
    (∀ day, dget history today = some day →
      dget (merge_history history today s) today = some (mergeDay day s) ∧
      ∀ sim ∈ s, ∀ ipm ∈ sim.2, ∀ pq ∈ ipm.2,
        qval (mergeDay day s) sim.1 (PyKey.s (pyStr ipm.1)) (PyKey.s (pyStr pq.1)) =
          some (max pq.2 ((qval day sim.1 (PyKey.s (pyStr ipm.1))
            (PyKey.s (pyStr pq.1))).getD 0))) := by
  constructor
  · intro h
    unfold merge_history
    simp only [h]
  · intro day hd
    constructor
    · unfold merge_history
      simp only [hd]
      exact dget_dset_self _ _ _
    · intro sim hm ipm hi pq hq
      exact qval_mergeDay_self day s hwf sim hm ipm hi pq hq

/-- Witness for C2: merging a fresh int-keyed snapshot into a store whose
date entry already holds string-keyed data yields the max of old and new
quantities at the string keys. -/
theorem claim_C2_witness :
    qval (mergeDay [("SELL", [(PyKey.s "7", [(PyKey.s "100", 5)])])]
        [("BUY", []), ("SELL", [(PyKey.i 7, [(PyKey.i 100, 3)])])])
      "SELL" (PyKey.s (pyStr (PyKey.i 7))) (PyKey.s (pyStr (PyKey.i 100))) =
      some (max 3 ((qval [("SELL", [(PyKey.s "7", [(PyKey.s "100", 5)])])] "SELL"
        (PyKey.s (pyStr (PyKey.i 7))) (PyKey.s (pyStr (PyKey.i 100)))).getD 0)) :=
  ((claim_C2 [("2025-11-05", [("SELL", [(PyKey.s "7", [(PyKey.s "100", 5)])])])]
      "2025-11-05" [("BUY", []), ("SELL", [(PyKey.i 7, [(PyKey.i 100, 3)])])]
      (by decide)).2 [("SELL", [(PyKey.s "7", [(PyKey.s "100", 5)])])] (by decide)).2
    ("SELL", [(PyKey.i 7, [(PyKey.i 100, 3)])]) (by decide)
    (PyKey.i 7, [(PyKey.i 100, 3)]) (by decide)
    (PyKey.i 100, 3) (by decide)

/-- A raw byte of the binary feed. -/
abbrev Byte := Fin 256

/-- Little-endian unsigned integer value of a byte list (the `<` /
standard-size byte order of the `"=HIB37s"` slot format). -/
def leVal : List Byte → Nat
  | [] => 0
  | b :: t => b.val + 256 * leVal t

/-- One 44-byte slot record `struct.unpack_from("=HIB37s", chunk, off)`:
a 2-byte unsigned `item_id`, a 4-byte unsigned `price`, a 1-byte unsigned
`quantity` and 37 ignored padding bytes.  `none` models `struct.error`
on an out-of-range read. -/
def unpackSlot (chunk : List Byte) (off : Nat) : Option (Nat × Nat × Nat) :=
  if off + 44 ≤ chunk.length then
    some (leVal ((chunk.drop off).take 2),
      leVal ((chunk.drop (off + 2)).take 4),
      leVal ((chunk.drop (off + 6)).take 1))
  else none

/-- The 133-byte stall header `struct.unpack_from("i32s64sB32s", chunk, 0)`:
4-byte signed stall number (native order — little-endian on the feed's
producer, unused downstream), 32-byte seller name, 64-byte description,
1-byte stall type and 32-byte location. -/
def unpackInfo (chunk : List Byte) :
    Option (Int × List Byte × List Byte × Nat × List Byte) :=
  if 133 ≤ chunk.length then
    some (if leVal (chunk.take 4) < 2 ^ 31 then (leVal (chunk.take 4) : Int)
        else (leVal (chunk.take 4) : Int) - 2 ^ 32,
      (chunk.drop 4).take 32,
      (chunk.drop 36).take 64,
      leVal ((chunk.drop 100).take 1),
      (chunk.drop 101).take 32)
  else none

/-- Is the byte an ASCII whitespace character (as stripped by `str.strip`)? -/
def isWsByte (b : Byte) : Bool :=
  b.val == 32 || (9 ≤ b.val && b.val ≤ 13) || (28 ≤ b.val && b.val ≤ 31)

/-- The scripts' `_clean`: truncate at the first NUL byte and strip
whitespace from both ends.  (The permissive UTF-8 text decoding between
those two steps is modelled as the identity on bytes; no claim depends
on the decoded text.) -/
def pyClean (b : List Byte) : List Byte :=
  (((b.takeWhile (fun c => c != 0)).dropWhile isWsByte).reverse.dropWhile isWsByte).reverse

/-- One flat SELL row as collected by `extract` (the `item_name` lookup
of `market_update.py` is an injected report-layer mapping and is not part
of the decoded record). -/
structure SellRow where
  item_id : Nat
  price : Nat
  quantity : Nat
  seller : List Byte
  stall : List Byte
deriving DecidableEq

/-- Histogram accumulation for one decoded slot:
`items.setdefault(stype, {}).setdefault(iid, {})` followed by
`items[stype][iid][price] = items[stype][iid].get(price, 0) + qty`. -/
def addSlot (items : Snapshot) (stype : String) (iid price qty : Nat) : Snapshot :=
  let items1 := dsetdefault items stype []
  let h := (dget items1 stype).getD []
  let h1 := dsetdefault h (PyKey.i (Int.ofNat iid)) []
  let items2 := dset items1 stype h1
  let pm := (dget h1 (PyKey.i (Int.ofNat iid))).getD []
  let q0 := (dget pm (PyKey.i (Int.ofNat price))).getD 0
  dset items2 stype (dset h1 (PyKey.i (Int.ofNat iid))
    (dset pm (PyKey.i (Int.ofNat price)) (q0 + (qty : Int))))

/-- The body of `for i in range(SLOTS_PER_STALL)`: decode slot `i` at
offset `138 + i*44`, skip it when `item_id <= 0`, otherwise accumulate
into the histograms and, for SELL stalls, append a flat row. -/
def slotStep (chunk : List Byte) (stype : String) (seller stall : List Byte)
    (st : Snapshot × List SellRow) (i : Nat) : Option (Snapshot × List SellRow) :=
  match unpackSlot chunk (138 + i * 44) with
  | none => none
  | some (iid, price, qty) =>
    if iid ≤ 0 then some st
    else
      some (addSlot st.1 stype iid price qty,
        if stype = "SELL" then st.2 ++ [⟨iid, price, qty, seller, stall⟩] else st.2)

/-- Decode one 930-byte chunk: header, stall-kind flag (`1` is SELL,
anything else BUY), name cleanup with description-or-location fallback,
then the 18 slots. -/
def processChunk (st : Snapshot × List SellRow) (chunk : List Byte) :
    Option (Snapshot × List SellRow) :=
  match unpackInfo chunk with
  | none => none
  | some (_num, seller_b, desc_b, stall_type, location_b) =>
    let stype := if stall_type = 1 then "SELL" else "BUY"
    let seller := pyClean seller_b
    let stall_desc := pyClean desc_b
    let location := pyClean location_b
    let stall_name := if stall_desc = [] then location else stall_desc
    (List.range 18).foldlM (slotStep chunk stype seller stall_name) st

/-- Fuel-driven chunking loop; `fuel` only bounds the recursion depth
(any `fuel ≥ bs.length` is enough since each step consumes 930 bytes). -/
def chunksOfAux (fuel : Nat) (bs : List Byte) : List (List Byte) :=
  match fuel with
  | 0 => []
  | f + 1 => if 930 ≤ bs.length then bs.take 930 :: chunksOfAux f (bs.drop 930) else []

/-- The `while True: chunk = buffer.read(930)` loop: the list of full
930-byte chunks; a trailing short read ends the stream and is discarded. -/
def chunksOf (bs : List Byte) : List (List Byte) := chunksOfAux bs.length bs

/-- The decoder `extract(content)` of both scripts: skip the 8-byte
header, then fold `processChunk` over the full 930-byte chunks, starting
from `{"BUY": {}, "SELL": {}}` and an empty row list. -/
def extract (content : List Byte) : Option (Snapshot × List SellRow) :=
  (chunksOf (content.drop 8)).foldlM processChunk ([("BUY", []), ("SELL", [])], [])

/-- The histogram component of the decoder's result. -/
def extractItems (content : List Byte) : Snapshot :=
  ((extract content).getD ([("BUY", []), ("SELL", [])], [])).1

/-- The flat SELL row component of the decoder's result. -/
def extractRows (content : List Byte) : List SellRow :=
  ((extract content).getD ([("BUY", []), ("SELL", [])], [])).2

/-- The `stalls` counter printed by the scripts: one per full chunk. -/
def stallCount (content : List Byte) : Nat := (chunksOf (content.drop 8)).length

theorem mem_dset {K V : Type} [DecidableEq K] (l : List (K × V)) (k : K) (v : V) :
    ∀ kv ∈ dset l k v, kv = (k, v) ∨ kv ∈ l := by
  induction l with
  | nil => simp [dset]
  | cons hd t ih =>
    intro kv hm
    by_cases hk : hd.1 = k
    · simp only [dset, if_pos hk] at hm
      rcases List.mem_cons.mp hm with h | h
      · exact Or.inl (by rw [h, hk])
      · exact Or.inr (List.mem_cons_of_mem _ h)
    · simp only [dset, if_neg hk] at hm
      rcases List.mem_cons.mp hm with h | h
      · exact Or.inr (h ▸ List.mem_cons_self _ _)
      · rcases ih kv h with h' | h'
        · exact Or.inl h'
        · exact Or.inr (List.mem_cons_of_mem _ h')

theorem mem_dsetdefault {K V : Type} [DecidableEq K] (l : List (K × V)) (k : K) (v : V) :
    ∀ kv ∈ dsetdefault l k v, kv = (k, v) ∨ kv ∈ l := by
  induction l with
  | nil => simp [dsetdefault]
  | cons hd t ih =>
    intro kv hm
    by_cases hk : hd.1 = k
    · simp only [dsetdefault, if_pos hk] at hm
      exact Or.inr hm
    · simp only [dsetdefault, if_neg hk] at hm
      rcases List.mem_cons.mp hm with h | h
      · exact Or.inr (h ▸ List.mem_cons_self _ _)
      · rcases ih kv h with h' | h'
        · exact Or.inl h'
        · exact Or.inr (List.mem_cons_of_mem _ h')

theorem leVal_lt (l : List Byte) : leVal l < 256 ^ l.length := by
  induction l with
  | nil => simp [leVal]
  | cons b t ih =>
    have hb : b.val < 256 := b.isLt
    simp only [leVal, List.length_cons, pow_succ]
    have h256 : (256 : Nat) ^ t.length * 256 = 256 * 256 ^ t.length := by ring
    rw [h256]
    omega

theorem leVal_le_of_len (l : List Byte) (n : Nat) (h : l.length ≤ n) :
    leVal l < 256 ^ n :=
  lt_of_lt_of_le (leVal_lt l) (Nat.pow_le_pow_right (by omega) h)

theorem chunksOfAux_length (fuel : Nat) :
    ∀ bs : List Byte, bs.length ≤ fuel →
      (chunksOfAux fuel bs).length = bs.length / 930 := by
  induction fuel with
  | zero =>
    intro bs h
    have : bs.length = 0 := by omega
    simp [chunksOfAux, this]
  | succ f ih =>
    intro bs h
    by_cases hc : 930 ≤ bs.length
    · simp only [chunksOfAux, if_pos hc, List.length_cons]
      rw [ih (bs.drop 930) (by simp only [List.length_drop]; omega)]
      simp only [List.length_drop]
      rw [Nat.div_eq_sub_div (by omega) hc]
    · simp only [chunksOfAux, if_neg hc, List.length_nil]
      omega

theorem chunksOf_length (bs : List Byte) : (chunksOf bs).length = bs.length / 930 :=
  chunksOfAux_length bs.length bs le_rfl

theorem chunksOfAux_mem_length (fuel : Nat) :
    ∀ bs : List Byte, ∀ c ∈ chunksOfAux fuel bs, c.length = 930 := by
  induction fuel with
  | zero => intro bs c hc; simp [chunksOfAux] at hc
  | succ f ih =>
    intro bs c hc
    by_cases h : 930 ≤ bs.length
    · simp only [chunksOfAux, if_pos h] at hc
      rcases List.mem_cons.mp hc with h' | h'
      · subst h'
        rw [List.length_take]
        omega
      · exact ih _ c h'
    · simp only [chunksOfAux, if_neg h] at hc
      exact absurd hc (List.not_mem_nil c)

theorem chunksOf_mem_length (bs : List Byte) (c : List Byte) (hc : c ∈ chunksOf bs) :
    c.length = 930 :=
  chunksOfAux_mem_length bs.length bs c hc

theorem foldlM_isSome {α β : Type} (f : α → β → Option α) (l : List β)
    (h : ∀ a b, b ∈ l → (f a b).isSome) :
    ∀ a, (l.foldlM f a).isSome := by
  induction l with
  | nil => intro a; simp [List.foldlM]
  | cons b t ih =>
    intro a
    simp only [List.foldlM_cons]
    cases hf : f a b with
    | none => exact absurd (hf ▸ h a b (List.mem_cons_self _ _)) (by simp)
    | some a' =>
      show (List.foldlM f a' t).isSome
      exact ih (fun a0 b0 hb0 => h a0 b0 (List.mem_cons_of_mem _ hb0)) a'

theorem foldlM_inv {α β : Type} (P : α → Prop) (f : α → β → Option α) (l : List β)
    (h : ∀ a b, b ∈ l → P a → ∀ a', f a b = some a' → P a') :
    ∀ a a', P a → l.foldlM f a = some a' → P a' := by
  induction l with
  | nil =>
    intro a a' hp he
    simp only [List.foldlM_nil] at he
    cases he
    exact hp
  | cons b t ih =>
    intro a a' hp he
    simp only [List.foldlM_cons] at he
    cases hf : f a b with
    | none => rw [hf] at he; simp at he
    | some a1 =>
      rw [hf] at he
      replace he : List.foldlM f a1 t = some a' := he
      exact ih (fun a0 b0 hb0 => h a0 b0 (List.mem_cons_of_mem _ hb0)) a1 a'
        (h a b (List.mem_cons_self _ _) hp a1 hf) he

theorem dget_mem {K V : Type} [DecidableEq K] (l : List (K × V)) (k : K) (v : V)
    (h : dget l k = some v) : (k, v) ∈ l := by
  induction l with
  | nil => simp [dget] at h
  | cons hd t ih =>
    obtain ⟨k0, v0⟩ := hd
    by_cases hk : k0 = k
    · simp only [dget, if_pos hk] at h
      cases h
      exact hk ▸ List.mem_cons_self _ _
    · simp only [dget, if_neg hk] at h
      exact List.mem_cons_of_mem _ (ih h)

/-- Every item key of the histograms is a strictly positive integer. -/
def ItemsPos (items : Snapshot) : Prop :=
  ∀ sim ∈ items, ∀ kv ∈ sim.2, ∃ n : Int, kv.1 = PyKey.i n ∧ 0 < n

/-- Every emitted SELL row satisfies the unsigned field bounds. -/
def RowsBounded (rows : List SellRow) : Prop :=
  ∀ r ∈ rows, 1 ≤ r.item_id ∧ r.item_id ≤ 65535 ∧
    r.price ≤ 4294967295 ∧ r.quantity ≤ 255

theorem ItemsPos_addSlot (items : Snapshot) (stype : String) (iid price qty : Nat)
    (hiid : 0 < iid) (h : ItemsPos items) :
    ItemsPos (addSlot items stype iid price qty) := by
  have hpos1 : ItemsPos (dsetdefault items stype []) := by
    intro sim hm kv hkv
    rcases mem_dsetdefault items stype [] sim hm with h' | h'
    · rw [h'] at hkv
      simp at hkv
    · exact h sim h' kv hkv
  simp only [addSlot]
  set items1 := dsetdefault items stype [] with hi1
  set hh := (dget items1 stype).getD [] with hhh
  set h1 := dsetdefault hh (PyKey.i (Int.ofNat iid)) [] with hh1
  have hmemh : ∀ kv ∈ hh, ∃ n : Int, kv.1 = PyKey.i n ∧ 0 < n := by
    intro kv hkv
    cases hd : dget items1 stype with
    | none =>
      rw [hhh, hd] at hkv
      simp at hkv
    | some h0 =>
      have : hh = h0 := by rw [hhh, hd]; rfl
      rw [this] at hkv
      exact hpos1 (stype, h0) (dget_mem _ _ _ hd) kv hkv
  have hmemh1 : ∀ kv ∈ h1, ∃ n : Int, kv.1 = PyKey.i n ∧ 0 < n := by
    intro kv hkv
    rcases mem_dsetdefault hh (PyKey.i (Int.ofNat iid)) [] kv hkv with h' | h'
    · exact ⟨Int.ofNat iid, by rw [h'], Int.ofNat_pos.mpr hiid⟩
    · exact hmemh kv h'
  intro sim hm kv hkv
  rcases mem_dset (dset items1 stype h1) stype _ sim hm with h' | h'
  · rw [h'] at hkv
    simp only at hkv
    rcases mem_dset h1 (PyKey.i (Int.ofNat iid)) _ kv hkv with h2 | h2
    · exact ⟨Int.ofNat iid, by rw [h2], Int.ofNat_pos.mpr hiid⟩
    · exact hmemh1 kv h2
  · rcases mem_dset items1 stype h1 sim h' with h2 | h2
    · rw [h2] at hkv
      simp only at hkv
      exact hmemh1 kv hkv
    · exact hpos1 sim h2 kv hkv

theorem slotStep_inv (chunk : List Byte) (stype : String) (seller stall : List Byte)
    (a : Snapshot × List SellRow) (i : Nat)
    (hP : ItemsPos a.1 ∧ RowsBounded a.2) (a' : Snapshot × List SellRow)
    (h : slotStep chunk stype seller stall a i = some a') :
    ItemsPos a'.1 ∧ RowsBounded a'.2 := by
  unfold slotStep at h
  cases hslot : unpackSlot chunk (138 + i * 44) with
  | none => rw [hslot] at h; exact absurd h (by simp)
  | some v =>
    rw [hslot] at h
    obtain ⟨iid, price, qty⟩ := v
    have hbounds : iid ≤ 65535 ∧ price ≤ 4294967295 ∧ qty ≤ 255 := by
      unfold unpackSlot at hslot
      by_cases hlen : 138 + i * 44 + 44 ≤ chunk.length
      · rw [if_pos hlen] at hslot
        obtain ⟨e1, e2, e3⟩ :
            leVal ((chunk.drop (138 + i * 44)).take 2) = iid ∧
            leVal ((chunk.drop (138 + i * 44 + 2)).take 4) = price ∧
            leVal ((chunk.drop (138 + i * 44 + 6)).take 1) = qty := by
          have := Option.some.inj hslot
          exact ⟨congrArg Prod.fst this,
            congrArg Prod.fst (congrArg Prod.snd this),
            congrArg Prod.snd (congrArg Prod.snd this)⟩
        have b1 := leVal_le_of_len ((chunk.drop (138 + i * 44)).take 2) 2
          (List.length_take_le _ _)
        have b2 := leVal_le_of_len ((chunk.drop (138 + i * 44 + 2)).take 4) 4
          (List.length_take_le _ _)
        have b3 := leVal_le_of_len ((chunk.drop (138 + i * 44 + 6)).take 1) 1
          (List.length_take_le _ _)
        rw [e1] at b1
        rw [e2] at b2
        rw [e3] at b3
        norm_num at b1 b2 b3
        omega
      · rw [if_neg hlen] at hslot
        exact absurd hslot (by simp)
    by_cases hle : iid ≤ 0
    · replace h : some a = some a' := by simpa [hle] using h
      cases Option.some.inj h
      exact hP
    · replace h : some (addSlot a.1 stype iid price qty,
          if stype = "SELL" then a.2 ++ [⟨iid, price, qty, seller, stall⟩] else a.2) =
          some a' := by simpa [hle] using h
      cases Option.some.inj h
      refine ⟨ItemsPos_addSlot a.1 stype iid price qty (by omega) hP.1, ?_⟩
      by_cases hsell : stype = "SELL"
      · simp only [if_pos hsell]
        intro r hr
        rcases List.mem_append.mp hr with h2 | h2
        · exact hP.2 r h2
        · rcases List.mem_singleton.mp h2 with rfl
          show 1 ≤ iid ∧ iid ≤ 65535 ∧ price ≤ 4294967295 ∧ qty ≤ 255
          exact ⟨by omega, hbounds.1, hbounds.2.1, hbounds.2.2⟩
      · simp only [if_neg hsell]
        exact hP.2

theorem processChunk_inv (st : Snapshot × List SellRow) (chunk : List Byte)
    (st' : Snapshot × List SellRow) (h : processChunk st chunk = some st')
    (hP : ItemsPos st.1 ∧ RowsBounded st.2) : ItemsPos st'.1 ∧ RowsBounded st'.2 := by
  unfold processChunk at h
  cases hinfo : unpackInfo chunk with
  | none => rw [hinfo] at h; exact absurd h (by simp)
  | some info =>
    rw [hinfo] at h
    obtain ⟨num, seller_b, desc_b, stall_type, location_b⟩ := info
    replace h : (List.range 18).foldlM
        (slotStep chunk (if stall_type = 1 then "SELL" else "BUY") (pyClean seller_b)
          (if pyClean desc_b = [] then pyClean location_b else pyClean desc_b)) st =
        some st' := h
    exact foldlM_inv (fun a => ItemsPos a.1 ∧ RowsBounded a.2) _ _
      (fun a i _ hPa a' ha' => slotStep_inv chunk _ _ _ a i hPa a' ha') st st' hP h

theorem processChunk_isSome (st : Snapshot × List SellRow) (chunk : List Byte)
    (hlen : chunk.length = 930) : (processChunk st chunk).isSome := by
  have hinfo : unpackInfo chunk = some
      (if leVal (chunk.take 4) < 2 ^ 31 then (leVal (chunk.take 4) : Int)
        else (leVal (chunk.take 4) : Int) - 2 ^ 32,
      (chunk.drop 4).take 32, (chunk.drop 36).take 64,
      leVal ((chunk.drop 100).take 1), (chunk.drop 101).take 32) := by
    unfold unpackInfo
    rw [if_pos (by omega)]
  unfold processChunk
  rw [hinfo]
  show ((List.range 18).foldlM (slotStep chunk _ _ _) st).isSome
  apply foldlM_isSome
  intro a i hi
  have hi18 : i < 18 := List.mem_range.mp hi
  have hslot : unpackSlot chunk (138 + i * 44) = some
      (leVal ((chunk.drop (138 + i * 44)).take 2),
        leVal ((chunk.drop (138 + i * 44 + 2)).take 4),
        leVal ((chunk.drop (138 + i * 44 + 6)).take 1)) := by
    unfold unpackSlot
    rw [if_pos (by omega)]
  unfold slotStep
  rw [hslot]
  by_cases hle : leVal ((chunk.drop (138 + i * 44)).take 2) ≤ 0 <;> simp [hle]

/-- The decoder is total: every byte buffer decodes to a result (shared
helper behind C9). -/
theorem extract_total (content : List Byte) : (extract content).isSome := by
  unfold extract
  apply foldlM_isSome
  intro a c hc
  exact processChunk_isSome a c (chunksOf_mem_length _ c hc)

/-- The decoder output satisfies the slot invariants: positive integer
histogram keys and unsigned field bounds on every row (shared helper
behind C6 and C10). -/
theorem extract_inv (content : List Byte) :
    ItemsPos (extractItems content) ∧ RowsBounded (extractRows content) := by
  unfold extractItems extractRows
  cases h : extract content with
  | none =>
    constructor
    · intro sim hm kv hkv
      simp only [Option.getD_none] at hm
      rcases List.mem_cons.mp hm with h' | h'
      · rw [h'] at hkv; simp at hkv
      · rcases List.mem_singleton.mp h' with rfl
        simp at hkv
    · intro r hr
      simp only [Option.getD_none] at hr
      simp at hr
  | some st' =>
    have hinit : ItemsPos ([("BUY", []), ("SELL", [])] : Snapshot) ∧
        RowsBounded ([] : List SellRow) := by
      constructor
      · intro sim hm kv hkv
        rcases List.mem_cons.mp hm with h' | h'
        · rw [h'] at hkv; simp at hkv
        · rcases List.mem_singleton.mp h' with rfl
          simp at hkv
      · intro r hr
        simp at hr
    have := foldlM_inv (fun a => ItemsPos a.1 ∧ RowsBounded a.2) processChunk
      (chunksOf (content.drop 8))
      (fun a c _ hPa a' ha' => processChunk_inv a c a' ha' hPa)
      ([("BUY", []), ("SELL", [])], []) st' hinit (by rw [← h]; rfl)
    simpa using this

/-- Claim C5: a buffer of exactly `8 + 930*N + k` bytes with `k < 930`
(in particular `k = 0`) decodes exactly `N` stalls; the trailing short
chunk is discarded and never partially decoded. -/
theorem claim_C5 (content : List Byte) (N k : Nat)
    (hlen : content.length = 8 + 930 * N + k) (hk : k < 930) :
    stallCount content = N := by
  unfold stallCount
  rw [chunksOf_length]
  simp only [List.length_drop]
  rw [hlen]
  have h8 : 8 + 930 * N + k - 8 = 930 * N + k := by omega
  rw [h8, Nat.mul_add_div (by omega), Nat.div_eq_of_lt hk]
  rfl

/-- Witness for C5: a 941-byte buffer (one full chunk plus a 3-byte
stub) decodes exactly one stall. -/
theorem claim_C5_witness : stallCount (List.replicate 941 (0 : Byte)) = 1 :=
  claim_C5 (List.replicate 941 (0 : Byte)) 1 3
    (by rw [List.length_replicate]) (by omega)

/-- Claim C9 (implicit): the decoder is total — every byte buffer
whatsoever decodes without error to a histogram pair and a row list;
every in-chunk read of the 133-byte header and of the 18 slots ending at
offset `138 + 44*18 = 930` is in bounds. -/
theorem claim_C9 (content : List Byte) :
    ∃ items rows, extract content = some (items, rows) := by
  cases h : extract content with
  | none => exact absurd (h ▸ extract_total content) (by simp)
  | some r => exact ⟨r.1, r.2, rfl⟩

/-- Claim C6: a slot with decoded `item_id` equal to 0 (the only value
`item_id <= 0` can take for an unsigned field) contributes to neither
histogram and never appears in the flat SELL row list: every histogram
item key is a strictly positive integer and every row has a positive
`item_id`. -/
theorem claim_C6 (content : List Byte) :
    (∀ sim ∈ extractItems content, ∀ kv ∈ sim.2, ∃ n : Int, kv.1 = PyKey.i n ∧ 0 < n) ∧
    ∀ r ∈ extractRows content, 0 < r.item_id := by
  refine ⟨(extract_inv content).1, fun r hr => ?_⟩
  have h := (extract_inv content).2 r hr
  omega

/-- A 938-byte sample buffer: 8-byte header, one SELL stall whose slot 0
holds `item_id = 1`, `price = 5`, `quantity = 2`; the 3 final bytes are
936..937 of the single chunk's padding. -/
def sampleBuf : List Byte :=
  (List.range 938).map (fun i =>
    if i = 108 then (1 : Byte) else if i = 146 then 1 else if i = 148 then 5
    else if i = 152 then 2 else 0)

set_option maxRecDepth 10000 in
/-- Witness for C6 on `sampleBuf`. -/
theorem claim_C6_witness :
    (∃ n : Int, (PyKey.i 1 : PyKey) = PyKey.i n ∧ 0 < n) ∧
    0 < (⟨1, 5, 2, [], []⟩ : SellRow).item_id :=
  ⟨(claim_C6 sampleBuf).1 ("SELL", [(PyKey.i 1, [(PyKey.i 5, 2)])]) (by decide)
      (PyKey.i 1, [(PyKey.i 5, 2)]) (by decide),
    (claim_C6 sampleBuf).2 ⟨1, 5, 2, [], []⟩ (by decide)⟩

/-- Claim C10 (implicit): every emitted slot record has
`1 ≤ item_id ≤ 65535`, `0 ≤ price ≤ 2^32 - 1` and
`0 ≤ quantity ≤ 255` — the fields are unsigned 2-, 4- and 1-byte
little-endian integers (being `Nat`-valued, they are nonnegative by
construction, so a negative `item_id` is unobservable). -/
theorem claim_C10 (content : List Byte) (r : SellRow) (hr : r ∈ extractRows content) :
    1 ≤ r.item_id ∧ r.item_id ≤ 65535 ∧ r.price ≤ 4294967295 ∧ r.quantity ≤ 255 :=
  (extract_inv content).2 r hr

set_option maxRecDepth 10000 in
/-- Witness for C10 on `sampleBuf`. -/
theorem claim_C10_witness :
    1 ≤ (⟨1, 5, 2, [], []⟩ : SellRow).item_id ∧
    (⟨1, 5, 2, [], []⟩ : SellRow).item_id ≤ 65535 ∧
    (⟨1, 5, 2, [], []⟩ : SellRow).price ≤ 4294967295 ∧
    (⟨1, 5, 2, [], []⟩ : SellRow).quantity ≤ 255 :=
  claim_C10 sampleBuf ⟨1, 5, 2, [], []⟩ (by decide)

/-- The median `float(pd.Series(vals).median())` of a list of integer
prices, exactly: sort ascending, take the middle element, or the mean of
the two middle elements when the length is even.  (For integer data of
this magnitude the float64 result is exact, so `Rat` models it
faithfully.) -/
def pdMedian (vals : List Int) : Rat :=
  let s := List.insertionSort (fun a b => a ≤ b) vals
  if s.length % 2 = 1 then ((s.getD (s.length / 2) 0 : Int) : Rat)
  else (((s.getD (s.length / 2 - 1) 0 : Int) : Rat) +
    ((s.getD (s.length / 2) 0 : Int) : Rat)) / 2

/-- The `prices` accumulation loop of `compute_sell_medians`:
`prices[int(iid)].append(int(p))` over every qualifying day, SELL item
and price key (`defaultdict(list)` keyed by `int(iid)`). -/
def medPrices (history : Store) (include_today : Bool) (today : String) :
    List (Int × List Int) :=
  history.foldl (fun acc dd =>
    if !include_today && dd.1 == today then acc
    else ((dget dd.2 "SELL").getD []).foldl (fun acc2 ipm =>
      ipm.2.foldl (fun acc3 pq =>
        dupd acc3 (pyInt ipm.1) [] (fun vs => vs ++ [pyInt pq.1])) acc2) acc) []

/-- `compute_sell_medians(history, include_today)` of both scripts, with
`date.today()` passed explicitly:
`{iid: float(pd.Series(vals).median()) for iid, vals in prices.items() if vals}`. -/
def compute_sell_medians (history : Store) (include_today : Bool) (today : String) :
    List (Int × Rat) :=
  ((medPrices history include_today today).filter (fun kv => !kv.2.isEmpty)).map
    (fun kv => (kv.1, pdMedian kv.2))

/-- The outlier test `med is not None and p >= med * out_mult`. -/
def isOutlier (med : Option Rat) (p : Int) (mult : Rat) : Bool :=
  match med with
  | some m => m * mult ≤ (p : Rat)
  | none => false

/-- The `totals` accumulation loop of `compute_sell_averages`: for every
qualifying day, SELL item and `(price, quantity)` pair, skip `q <= 0`
and outliers, else accumulate `(sum_pq + p*q, sum_q + q, obs + 1)`. -/
def avgTotals (history : Store) (include_today : Bool) (today : String)
    (medians : List (Int × Rat)) (out_mult : Rat) :
    List (Int × (Int × Int × Int)) :=
  history.foldl (fun acc dd =>
    if !include_today && dd.1 == today then acc
    else ((dget dd.2 "SELL").getD []).foldl (fun acc2 ipm =>
      let med := dget medians (pyInt ipm.1)
      ipm.2.foldl (fun acc3 pq =>
        if pq.2 ≤ 0 then acc3
        else if isOutlier med (pyInt pq.1) out_mult then acc3
        else dupd acc3 (pyInt ipm.1) ((0 : Int), (0 : Int), (0 : Int))
          (fun t => (t.1 + pyInt pq.1 * pq.2, t.2.1 + pq.2, t.2.2 + 1))) acc2) acc) []

/-- `compute_sell_averages(history, include_today, medians, out_mult)`:
`{iid: (pq / q, obs) for iid, (pq, q, obs) in totals.items() if q > 0}`
(the float division is modelled exactly as `Rat`). -/
def compute_sell_averages (history : Store) (include_today : Bool) (today : String)
    (medians : List (Int × Rat)) (out_mult : Rat) : List (Int × (Rat × Int)) :=
  ((avgTotals history include_today today medians out_mult).filter
      (fun kv => 0 < kv.2.2.1)).map
    (fun kv => (kv.1, ((kv.2.1 : Rat) / (kv.2.2.1 : Rat), kv.2.2.2)))

/-- The flat observation stream of the statistics loops: one
`(int(iid), int(p), q)` triple per qualifying date and per SELL histogram
key, in iteration order. -/
def flatObs (history : Store) (include_today : Bool) (today : String) :
    List (Int × Int × Int) :=
  (history.filter (fun dd => !(!include_today && dd.1 == today))).flatMap (fun dd =>
    ((dget dd.2 "SELL").getD []).flatMap (fun ipm =>
      ipm.2.map (fun pq => (pyInt ipm.1, pyInt pq.1, pq.2))))

/-- Do all SELL item and price keys of the store parse as integers?
Python's `int()` raises on any other key, so this is the domain on which
the statistics functions run at all (decimal-string or integer keys). -/
def StoreSellIntLike (history : Store) : Bool :=
  history.all (fun dd => ((dget dd.2 "SELL").getD []).all (fun ipm =>
    keyIntLike ipm.1 && ipm.2.all (fun pq => keyIntLike pq.1)))

/-- Apply an accumulator step for each list element, left to right. -/
def applyAll {A P : Type} (g : P → A → A) (x : A) (ps : List P) : A :=
  ps.foldl (fun a p => g p a) x

theorem foldl_skip {α β : Type} (q : β → Bool) (f : α → β → α) (l : List β) (a : α) :
    l.foldl (fun acc b => if q b then acc else f acc b) a =
      (l.filter (fun b => !q b)).foldl f a := by
  induction l generalizing a with
  | nil => rfl
  | cons b t ih =>
    by_cases hb : q b <;> simp [List.foldl_cons, List.filter_cons, hb, ih]

theorem foldl_flatMap {α β γ : Type} (g : β → List γ) (f : α → γ → α) (l : List β) (a : α) :
    (l.flatMap g).foldl f a = l.foldl (fun acc b => (g b).foldl f acc) a := by
  induction l generalizing a with
  | nil => rfl
  | cons b t ih =>
    rw [List.flatMap_cons, List.foldl_append, List.foldl_cons, ih]

theorem dget_foldl_dupd_some {K A P : Type} [DecidableEq K] (key : P → K)
    (g : P → A → A) (d0 : A) (l : List P) :
    ∀ acc : List (K × A), ∀ k : K, ∀ a : A, dget acc k = some a →
      dget (l.foldl (fun a p => dupd a (key p) d0 (g p)) acc) k =
        some (applyAll g a (l.filter (fun p => key p = k))) := by
  induction l with
  | nil => intro acc k a h; simpa [applyAll] using h
  | cons p t ih =>
    intro acc k a h
    simp only [List.foldl_cons]
    by_cases hp : key p = k
    · have hcons : dget (dupd acc (key p) d0 (g p)) k = some (g p a) := by
        rw [← hp] at h ⊢
        rw [dget_dupd_self, h]
        rfl
      rw [ih _ _ _ hcons]
      simp [List.filter_cons, hp, applyAll]
    · have hne : dget (dupd acc (key p) d0 (g p)) k = some a := by
        rw [dget_dupd_ne _ _ _ _ _ (fun hc => hp hc.symm)]
        exact h
      rw [ih _ _ _ hne]
      simp [List.filter_cons, hp]

theorem dget_foldl_dupd_none {K A P : Type} [DecidableEq K] (key : P → K)
    (g : P → A → A) (d0 : A) (l : List P) :
    ∀ acc : List (K × A), ∀ k : K, dget acc k = none →
      dget (l.foldl (fun a p => dupd a (key p) d0 (g p)) acc) k =
        if (l.filter (fun p => key p = k)).isEmpty then none
        else some (applyAll g d0 (l.filter (fun p => key p = k))) := by
  induction l with
  | nil => intro acc k h; simpa [applyAll] using h
  | cons p t ih =>
    intro acc k h
    simp only [List.foldl_cons]
    by_cases hp : key p = k
    · have hcons : dget (dupd acc (key p) d0 (g p)) k = some (g p d0) := by
        rw [← hp] at h ⊢
        rw [dget_dupd_self, h]
        rfl
      rw [dget_foldl_dupd_some key g d0 t _ _ _ hcons]
      simp [List.filter_cons, hp, applyAll]
    · have hne : dget (dupd acc (key p) d0 (g p)) k = none := by
        rw [dget_dupd_ne _ _ _ _ _ (fun hc => hp hc.symm)]
        exact h
      rw [ih _ _ hne]
      simp [List.filter_cons, hp]

theorem medPrices_eq_flat (history : Store) (inc : Bool) (today : String) :
    medPrices history inc today =
      (flatObs history inc today).foldl
        (fun acc x => dupd acc x.1 [] (fun vs => vs ++ [x.2.1])) [] := by
  unfold medPrices flatObs
  rw [foldl_skip]
  simp only [foldl_flatMap, List.foldl_map]

theorem avgTotals_eq_flat (history : Store) (inc : Bool) (today : String)
    (medians : List (Int × Rat)) (mult : Rat) :
    avgTotals history inc today medians mult =
      (flatObs history inc today).foldl
        (fun acc x =>
          if x.2.2 ≤ 0 then acc
          else if isOutlier (dget medians x.1) x.2.1 mult then acc
          else dupd acc x.1 ((0 : Int), (0 : Int), (0 : Int))
            (fun t => (t.1 + x.2.1 * x.2.2, t.2.1 + x.2.2, t.2.2 + 1))) [] := by
  unfold avgTotals flatObs
  rw [foldl_skip]
  simp only [foldl_flatMap, List.foldl_map]

theorem applyAll_snoc_map (ps : List (Int × Int × Int)) (a : List Int) :
    applyAll (fun (x : Int × Int × Int) (vs : List Int) => vs ++ [x.2.1]) a ps =
      a ++ ps.map (fun x => x.2.1) := by
  induction ps generalizing a with
  | nil => simp [applyAll]
  | cons x t ih =>
    simp only [applyAll, List.foldl_cons, List.map_cons] at ih ⊢
    rw [ih]
    simp

theorem applyAll_sums (ps : List (Int × Int × Int)) (t : Int × Int × Int) :
    applyAll (fun (x : Int × Int × Int) (t : Int × Int × Int) =>
        (t.1 + x.2.1 * x.2.2, t.2.1 + x.2.2, t.2.2 + 1)) t ps =
      (t.1 + (ps.map (fun x => x.2.1 * x.2.2)).sum,
        t.2.1 + (ps.map (fun x => x.2.2)).sum,
        t.2.2 + (ps.length : Int)) := by
  induction ps generalizing t with
  | nil => simp [applyAll]
  | cons x w ih =>
    simp only [applyAll, List.foldl_cons, List.map_cons, List.sum_cons,
      List.length_cons] at ih ⊢
    rw [ih]
    refine congrArg₂ Prod.mk (by ring) (congrArg₂ Prod.mk (by ring) (by push_cast; ring))

theorem foldl_dupd_keys_nodup {K A P : Type} [DecidableEq K] (key : P → K)
    (g : P → A → A) (d0 : A) (l : List P) (acc : List (K × A))
    (h : (acc.map Prod.fst).Nodup) :
    (((l.foldl (fun a p => dupd a (key p) d0 (g p)) acc)).map Prod.fst).Nodup :=
  foldl_pres (fun a => (a.map Prod.fst).Nodup) _ l
    (fun a p _ hp => dupd_keys_nodup a (key p) d0 (g p) hp) acc h

theorem dget_filter_map {K A B : Type} [DecidableEq K] (l : List (K × A))
    (p : A → Bool) (f : A → B) (k : K) (hnd : (l.map Prod.fst).Nodup) :
    dget ((l.filter (fun kv => p kv.2)).map (fun kv => (kv.1, f kv.2))) k =
      (dget l k).bind (fun v => if p v then some (f v) else none) := by
  induction l with
  | nil => simp [dget]
  | cons hd t ih =>
    obtain ⟨k0, v0⟩ := hd
    simp only [List.map_cons, List.nodup_cons] at hnd
    by_cases hk : k0 = k
    · subst hk
      have hnone : dget ((t.filter (fun kv => p kv.2)).map (fun kv => (kv.1, f kv.2))) k0 =
          none := by
        rw [dget_eq_none_iff]
        intro hmem
        apply hnd.1
        rcases List.mem_map.mp hmem with ⟨kv, hkv, hfst⟩
        rcases List.mem_map.mp hkv with ⟨kv0, hkv0, hmk⟩
        have : kv0.1 = k0 := by rw [← hfst, ← hmk]
        exact this ▸ List.mem_map.mpr ⟨kv0, List.mem_of_mem_filter hkv0, rfl⟩
      by_cases hp : p v0
      · simp [List.filter_cons, hp, dget]
      · simp only [List.filter_cons, hp]
        simp only [Bool.false_eq_true, if_false]
        rw [hnone]
        simp [dget, hp]
    · simp only [List.filter_cons]
      by_cases hp : p v0
      · simp only [hp, if_true, List.map_cons]
        simp only [dget, if_neg hk]
        exact ih hnd.2
      · simp only [hp, Bool.false_eq_true, if_false]
        rw [ih hnd.2]
        simp [dget, hk]

/-- Claim C3: for every (int-keyed or decimal-string-keyed) history and
item, the reported median is the statistical median — middle of the
sorted list, or mean of the two middles — of the list holding one entry
per distinct `(date, price)` histogram key of that item across all
qualifying dates, regardless of the stored quantity (quantity 0
included); an item with no observations is absent from the result, never
reported as zero. -/
theorem claim_C3 (history : Store) (inc : Bool) (today : String) (iid : Int)
    (hlike : StoreSellIntLike history = true) :
    dget (compute_sell_medians history inc today) iid =
      if ((flatObs history inc today).filter (fun x => x.1 = iid)).isEmpty then none
      else some (pdMedian (((flatObs history inc today).filter
        (fun x => x.1 = iid)).map (fun x => x.2.1))) := by
  have hnd : ((medPrices history inc today).map Prod.fst).Nodup := by
    rw [medPrices_eq_flat]
    exact foldl_dupd_keys_nodup (fun x : Int × Int × Int => x.1)
      (fun (x : Int × Int × Int) (vs : List Int) => vs ++ [x.2.1]) [] _ [] (by simp)
  have hget : dget (medPrices history inc today) iid =
      if ((flatObs history inc today).filter (fun x => x.1 = iid)).isEmpty then none
      else some (applyAll (fun (x : Int × Int × Int) (vs : List Int) => vs ++ [x.2.1]) []
        ((flatObs history inc today).filter (fun x => x.1 = iid))) := by
    rw [medPrices_eq_flat]
    exact dget_foldl_dupd_none (fun x : Int × Int × Int => x.1)
      (fun (x : Int × Int × Int) (vs : List Int) => vs ++ [x.2.1]) [] _ [] iid rfl
  unfold compute_sell_medians
  rw [dget_filter_map (medPrices history inc today) (fun v => !v.isEmpty)
    (fun v => pdMedian v) iid hnd, hget]
  by_cases hemp : ((flatObs history inc today).filter (fun x => x.1 = iid)).isEmpty
  · simp [hemp]
  · simp only [hemp, Bool.false_eq_true, if_false, Option.some_bind]
    rw [applyAll_snoc_map]
    simp only [List.nil_append]
    have hne : ¬(((flatObs history inc today).filter (fun x => x.1 = iid)).map
        (fun x => x.2.1)).isEmpty := by
      simp only [List.isEmpty_iff, List.map_eq_nil_iff]
      simpa [List.isEmpty_iff] using hemp
    simp [hne]

/-- Witness for C3: the spec's own example — SELL prices 10, 10, 30 for
item 1 as distinct histogram keys across three dates — has median 10. -/
theorem claim_C3_witness :
    (StoreSellIntLike
      [("2025-11-01", [("SELL", [(PyKey.s "1", [(PyKey.s "10", 2)])])]),
       ("2025-11-02", [("SELL", [(PyKey.s "1", [(PyKey.s "10", 1)])])]),
       ("2025-11-03", [("SELL", [(PyKey.s "1", [(PyKey.s "30", 4)])])])] = true) ∧
    dget (compute_sell_medians
      [("2025-11-01", [("SELL", [(PyKey.s "1", [(PyKey.s "10", 2)])])]),
       ("2025-11-02", [("SELL", [(PyKey.s "1", [(PyKey.s "10", 1)])])]),
       ("2025-11-03", [("SELL", [(PyKey.s "1", [(PyKey.s "30", 4)])])])]
      true "2025-11-03") 1 =
      (if ((flatObs
        [("2025-11-01", [("SELL", [(PyKey.s "1", [(PyKey.s "10", 2)])])]),
         ("2025-11-02", [("SELL", [(PyKey.s "1", [(PyKey.s "10", 1)])])]),
         ("2025-11-03", [("SELL", [(PyKey.s "1", [(PyKey.s "30", 4)])])])]
        true "2025-11-03").filter (fun x => x.1 = 1)).isEmpty then none
      else some (pdMedian (((flatObs
        [("2025-11-01", [("SELL", [(PyKey.s "1", [(PyKey.s "10", 2)])])]),
         ("2025-11-02", [("SELL", [(PyKey.s "1", [(PyKey.s "10", 1)])])]),
         ("2025-11-03", [("SELL", [(PyKey.s "1", [(PyKey.s "30", 4)])])])]
        true "2025-11-03").filter (fun x => x.1 = 1)).map (fun x => x.2.1)))) ∧
    dget (compute_sell_medians
      [("2025-11-01", [("SELL", [(PyKey.s "1", [(PyKey.s "10", 2)])])]),
       ("2025-11-02", [("SELL", [(PyKey.s "1", [(PyKey.s "10", 1)])])]),
       ("2025-11-03", [("SELL", [(PyKey.s "1", [(PyKey.s "30", 4)])])])]
      true "2025-11-03") 1 = some 10 :=
  ⟨by decide, claim_C3 _ true "2025-11-03" 1 (by decide), by decide⟩

/-- The surviving observations of the outlier-filtered average for one
item: quantity strictly positive and not excluded by the median test. -/
def survObs (history : Store) (inc : Bool) (today : String)
    (medians : List (Int × Rat)) (mult : Rat) (iid : Int) : List (Int × Int × Int) :=
  (flatObs history inc today).filter
    (fun x => decide (x.1 = iid) &&
      !(decide (x.2.2 ≤ 0) || isOutlier (dget medians x.1) x.2.1 mult))

theorem avgTotals_eq_skip (history : Store) (inc : Bool) (today : String)
    (medians : List (Int × Rat)) (mult : Rat) :
    avgTotals history inc today medians mult =
      ((flatObs history inc today).filter
        (fun x => !(decide (x.2.2 ≤ 0) || isOutlier (dget medians x.1) x.2.1 mult))).foldl
        (fun acc x => dupd acc x.1 ((0 : Int), (0 : Int), (0 : Int))
          (fun t => (t.1 + x.2.1 * x.2.2, t.2.1 + x.2.2, t.2.2 + 1))) [] := by
  rw [avgTotals_eq_flat, ← foldl_skip]
  congr 1
  funext acc x
  by_cases h1 : x.2.2 ≤ 0
  · simp [h1]
  · by_cases h2 : isOutlier (dget medians x.1) x.2.1 mult <;> simp [h1, h2]

theorem dget_avgTotals (history : Store) (inc : Bool) (today : String)
    (medians : List (Int × Rat)) (mult : Rat) (iid : Int) :
    dget (avgTotals history inc today medians mult) iid =
      if (survObs history inc today medians mult iid).isEmpty then none
      else some
        (((survObs history inc today medians mult iid).map
            (fun x => x.2.1 * x.2.2)).sum,
          ((survObs history inc today medians mult iid).map (fun x => x.2.2)).sum,
          ((survObs history inc today medians mult iid).length : Int)) := by
  rw [avgTotals_eq_skip]
  rw [dget_foldl_dupd_none (fun x : Int × Int × Int => x.1)
    (fun (x : Int × Int × Int) (t : Int × Int × Int) =>
      (t.1 + x.2.1 * x.2.2, t.2.1 + x.2.2, t.2.2 + 1)) ((0 : Int), (0 : Int), (0 : Int))
    _ [] iid rfl]
  rw [List.filter_filter]
  rw [applyAll_sums]
  simp only [zero_add]
  rfl

theorem avgTotals_keys_nodup (history : Store) (inc : Bool) (today : String)
    (medians : List (Int × Rat)) (mult : Rat) :
    ((avgTotals history inc today medians mult).map Prod.fst).Nodup := by
  rw [avgTotals_eq_skip]
  exact foldl_dupd_keys_nodup (fun x : Int × Int × Int => x.1)
    (fun (x : Int × Int × Int) (t : Int × Int × Int) =>
      (t.1 + x.2.1 * x.2.2, t.2.1 + x.2.2, t.2.2 + 1)) _ _ [] (by simp)

theorem survObs_qty_pos (history : Store) (inc : Bool) (today : String)
    (medians : List (Int × Rat)) (mult : Rat) (iid : Int) :
    ∀ x ∈ survObs history inc today medians mult iid, 0 < x.2.2 := by
  intro x hx
  have h := List.of_mem_filter hx
  simp only [Bool.and_eq_true, Bool.not_eq_true', Bool.or_eq_false_iff,
    decide_eq_false_iff_not] at h
  omega

/-- Claim C4: the outlier-filtered weighted average for an item is
computed over the `(price, quantity)` pairs with positive quantity that
survive the median test (`price >= median * multiplier` with a present
median excludes the pair); the result is
`(sum of price*quantity / sum of quantity, surviving pair count)`, and an
item is absent from the result exactly when its surviving weighted
quantity is zero. -/
theorem claim_C4 (history : Store) (inc : Bool) (today : String)
    (medians : List (Int × Rat)) (mult : Rat) (iid : Int)
    (hlike : StoreSellIntLike history = true) :
    (dget (compute_sell_averages history inc today medians mult) iid =
      if (survObs history inc today medians mult iid).isEmpty then none
      else some
        (((((survObs history inc today medians mult iid).map
              (fun x => x.2.1 * x.2.2)).sum : Int) : Rat) /
            ((((survObs history inc today medians mult iid).map
              (fun x => x.2.2)).sum : Int) : Rat),
          ((survObs history inc today medians mult iid).length : Int))) ∧
    (dget (compute_sell_averages history inc today medians mult) iid = none ↔
      ((survObs history inc today medians mult iid).map (fun x => x.2.2)).sum = 0) := by
  have hnd := avgTotals_keys_nodup history inc today medians mult
  have hchar : dget (compute_sell_averages history inc today medians mult) iid =
      if (survObs history inc today medians mult iid).isEmpty then none
      else some
        (((((survObs history inc today medians mult iid).map
              (fun x => x.2.1 * x.2.2)).sum : Int) : Rat) /
            ((((survObs history inc today medians mult iid).map
              (fun x => x.2.2)).sum : Int) : Rat),
          ((survObs history inc today medians mult iid).length : Int)) := by
    unfold compute_sell_averages
    rw [dget_filter_map (avgTotals history inc today medians mult)
      (fun v => decide (0 < v.2.1))
      (fun v => ((v.1 : Rat) / (v.2.1 : Rat), v.2.2)) iid hnd]
    rw [dget_avgTotals]
    by_cases hemp : (survObs history inc today medians mult iid).isEmpty
    · simp [hemp]
    · have hne : survObs history inc today medians mult iid ≠ [] := by
        simpa [List.isEmpty_iff] using hemp
      have hpos : 0 < ((survObs history inc today medians mult iid).map
          (fun x => x.2.2)).sum := by
        apply List.sum_pos
        · intro q hq
          rcases List.mem_map.mp hq with ⟨x, hx, rfl⟩
          exact survObs_qty_pos history inc today medians mult iid x hx
        · simpa using hne
      simp only [hemp, Bool.false_eq_true, if_false, Option.some_bind]
      simp [hpos]
  refine ⟨hchar, ?_⟩
  rw [hchar]
  by_cases hemp : (survObs history inc today medians mult iid).isEmpty
  · have hnil : survObs history inc today medians mult iid = [] := by
      simpa [List.isEmpty_iff] using hemp
    simp [hemp, hnil]
  · have hne : survObs history inc today medians mult iid ≠ [] := by
      simpa [List.isEmpty_iff] using hemp
    have hpos : 0 < ((survObs history inc today medians mult iid).map
        (fun x => x.2.2)).sum := by
      apply List.sum_pos
      · intro q hq
        rcases List.mem_map.mp hq with ⟨x, hx, rfl⟩
        exact survObs_qty_pos history inc today medians mult iid x hx
      · simpa using hne
    simp only [hemp, Bool.false_eq_true, if_false]
    constructor
    · intro hc
      exact absurd hc (by simp)
    · intro hc
      exact absurd hc.symm hpos.ne

set_option maxRecDepth 4000 in
/-- Witness for C4: the spec's outlier and weighted-average examples —
with median 10 and multiplier 3, the pair `(price 30, qty 5)` is
excluded while `(8, qty 2)` and `(12, qty 2)` survive, giving average
`(8*2 + 12*2) / 4 = 10` with 2 observations. -/
theorem claim_C4_witness :
    (StoreSellIntLike
      [("2025-11-01", [("SELL", [(PyKey.s "1", [(PyKey.s "8", 2)])])]),
       ("2025-11-02", [("SELL", [(PyKey.s "1", [(PyKey.s "12", 2), (PyKey.s "30", 5)])])])]
      = true) ∧
    (dget (compute_sell_averages
      [("2025-11-01", [("SELL", [(PyKey.s "1", [(PyKey.s "8", 2)])])]),
       ("2025-11-02", [("SELL", [(PyKey.s "1", [(PyKey.s "12", 2), (PyKey.s "30", 5)])])])]
      true "2025-11-02" [(1, (10 : Rat))] 3) 1 = none ↔
      ((survObs
        [("2025-11-01", [("SELL", [(PyKey.s "1", [(PyKey.s "8", 2)])])]),
         ("2025-11-02", [("SELL", [(PyKey.s "1", [(PyKey.s "12", 2), (PyKey.s "30", 5)])])])]
        true "2025-11-02" [(1, (10 : Rat))] 3 1).map (fun x => x.2.2)).sum = 0) ∧
    dget (compute_sell_averages
      [("2025-11-01", [("SELL", [(PyKey.s "1", [(PyKey.s "8", 2)])])]),
       ("2025-11-02", [("SELL", [(PyKey.s "1", [(PyKey.s "12", 2), (PyKey.s "30", 5)])])])]
      true "2025-11-02" [(1, (10 : Rat))] 3) 1 = some ((10 : Rat), (2 : Int)) :=
  ⟨by decide,
    (claim_C4 _ true "2025-11-02" [(1, (10 : Rat))] 3 1 (by decide)).2,
    by with_unfolding_all decide⟩

/-- JSON serialization of a single key: `json.dump` writes an integer
dict key as its decimal string; string keys are already serialized. -/
def serializeKey : PyKey → PyKey
  | .i n => .s (intToDec n)
  | .s t => .s t

/-- Serialize the price level of a histogram. -/
def serPm (pm : List (PyKey × Int)) : List (PyKey × Int) :=
  pm.map (fun pq => (serializeKey pq.1, pq.2))

/-- Serialize the item level of a histogram. -/
def serHist (h : Hist) : Hist :=
  h.map (fun ipm => (serializeKey ipm.1, serPm ipm.2))

/-- Serialize a day snapshot (stall-kind keys are already strings). -/
def serSnap (s : Snapshot) : Snapshot :=
  s.map (fun sim => (sim.1, serHist sim.2))

/-- The store as `json.dump`/`json.load` round-trips it: every integer
item or price key replaced by its decimal-string form. -/
def serializeStore (h : Store) : Store :=
  h.map (fun dd => (dd.1, serSnap dd.2))

theorem pyInt_serializeKey (k : PyKey) : pyInt (serializeKey k) = pyInt k := by
  cases k with
  | i n => simp [serializeKey, pyInt, decToInt_intToDec]
  | s t => rfl

theorem dget_map_val {K V W : Type} [DecidableEq K] (l : List (K × V)) (f : V → W) (k : K) :
    dget (l.map (fun kv => (kv.1, f kv.2))) k = (dget l k).map f := by
  induction l with
  | nil => simp [dget]
  | cons hd t ih =>
    by_cases hk : hd.1 = k <;> simp [dget, hk, ih]

theorem serHist_flatMap (w : Hist) :
    (serHist w).flatMap (fun ipm => ipm.2.map (fun pq => (pyInt ipm.1, pyInt pq.1, pq.2))) =
      w.flatMap (fun ipm => ipm.2.map (fun pq => (pyInt ipm.1, pyInt pq.1, pq.2))) := by
  induction w with
  | nil => rfl
  | cons ipm t ih =>
    unfold serHist at ih ⊢
    simp only [List.map_cons, List.flatMap_cons, ih]
    congr 1
    unfold serPm
    rw [List.map_map]
    apply List.map_congr_left
    intro pq hpq
    simp [Function.comp, pyInt_serializeKey]

theorem flatObs_serialize (history : Store) (inc : Bool) (today : String) :
    flatObs (serializeStore history) inc today = flatObs history inc today := by
  unfold flatObs serializeStore
  induction history with
  | nil => rfl
  | cons dd t ih =>
    simp only [List.map_cons, List.filter_cons]
    by_cases hkeep : !(!inc && dd.1 == today)
    · simp only [hkeep, if_pos]
      simp only [List.flatMap_cons]
      rw [ih]
      congr 1
      have hsell : dget (serSnap dd.2) "SELL" = (dget dd.2 "SELL").map serHist := by
        unfold serSnap
        exact dget_map_val dd.2 serHist "SELL"
      rw [hsell]
      cases hs : dget dd.2 "SELL" with
      | none => rfl
      | some hst =>
        simp only [Option.map_some', Option.getD_some]
        exact serHist_flatMap hst
    · simp only [hkeep]
      simp only [Bool.false_eq_true, if_false]
      exact ih

/-- Claim C8: the median and outlier-filtered-average computations are
insensitive to the key representation — running them on the
JSON-serialized store (decimal-string keys) returns exactly the result
mappings of the in-memory integer-keyed store. -/
theorem claim_C8 (history : Store) (inc : Bool) (today : String)
    (medians : List (Int × Rat)) (mult : Rat) :
    compute_sell_medians (serializeStore history) inc today =
      compute_sell_medians history inc today ∧
    compute_sell_averages (serializeStore history) inc today medians mult =
      compute_sell_averages history inc today medians mult := by
  have hflat := flatObs_serialize history inc today
  constructor
  · unfold compute_sell_medians
    rw [medPrices_eq_flat, medPrices_eq_flat, hflat]
  · unfold compute_sell_averages
    rw [avgTotals_eq_skip, avgTotals_eq_skip, hflat]
